import Mathlib

/-!
Verification of the menu-extraction pipeline of `system_inspection_admin_web`.

The development shallowly embeds the extraction code that is duplicated across
`extract_menu.py` and `service/system_service.py` (the two copies are
line-for-line identical in every function modelled here), plus the persistence
helpers of `service/system_service.py`.  URL handling follows CPython's
`urllib.parse` (`urlsplit` / `urlparse` / `urljoin` / `urlunparse`) at the
character level, since `normalize_url` delegates to those functions.
Omitted from the URL model: the IPv6-bracket `ValueError` validation of
`urlsplit` (only reachable on bracket-malformed authorities, which no claim
touches).  Lowercasing is modelled for ASCII; the repository's constants and
the claims only lowercase ASCII or case-invariant (Korean) text.
-/

namespace SysInspect

/-! ## Character helpers -/

def isAsciiAlphaC (c : Char) : Bool :=
  (('a' ≤ c && c ≤ 'z') || ('A' ≤ c && c ≤ 'Z'))

def isAsciiDigitC (c : Char) : Bool :=
  ('0' ≤ c && c ≤ '9')

/-- ASCII lowercasing, as `str.lower` acts on ASCII. -/
def lowerC (c : Char) : Char :=
  if 'A' ≤ c && c ≤ 'Z' then Char.ofNat (c.toNat + 32) else c

def lowerL (l : List Char) : List Char := l.map lowerC

/-- `scheme_chars` of `urllib.parse`: letters, digits and `+-.`. -/
def schemeChar (c : Char) : Bool :=
  isAsciiAlphaC c || isAsciiDigitC c || c = '+' || c = '-' || c = '.'

/-- `urlsplit` deletes the unsafe bytes tab/CR/LF before parsing. -/
def cleanUrl (l : List Char) : List Char :=
  l.filter (fun c => !(c = '\t' || c = '\r' || c = '\n'))

/-! ## `urllib.parse.urlparse` (six components, params split from the path) -/

structure Url6 where
  scheme : List Char
  netloc : List Char
  path : List Char
  params : List Char
  query : List Char
  frag : List Char
  deriving Repr, DecidableEq

/-- Scheme extraction of `urlsplit`: the text before the first `:` is taken as
the scheme (lowercased) when it is non-empty, starts with an ASCII letter and
consists of scheme characters. -/
def schemeGo (acc : List Char) : List Char → Option (List Char × List Char)
  | [] => none
  | c :: cs =>
      if c = ':' then some ((acc.reverse).map lowerC, cs)
      else if schemeChar c then schemeGo (c :: acc) cs
      else none

def splitScheme : List Char → Option (List Char × List Char)
  | [] => none
  | c :: cs => if isAsciiAlphaC c then schemeGo [c] cs else none

def netlocStop (c : Char) : Bool := c = '/' || c = '?' || c = '#'

/-- `_splitnetloc`: when the remainder starts with `//`, the authority runs to
the first of `/?#`; the delimiter stays on the remainder. -/
def splitNetloc (l : List Char) : List Char × List Char :=
  if l.take 2 = ['/', '/'] then
    ((l.drop 2).takeWhile (fun c => !netlocStop c),
     (l.drop 2).dropWhile (fun c => !netlocStop c))
  else ([], l)

/-- Split at the first occurrence of `c`; `none` when absent. -/
def splitFirst (c : Char) : List Char → Option (List Char × List Char)
  | [] => none
  | d :: ds =>
      if d = c then some ([], ds)
      else match splitFirst c ds with
        | some (a, b) => some (d :: a, b)
        | none => none

/-- `_splitparams`: the params are split at the first `;` of the last path
segment (after the last `/` when the path has one). -/
def splitParams (p : List Char) : List Char × List Char :=
  if '/' ∈ p then
    let segR := p.reverse.takeWhile (fun c => !(c = '/'))
    let seg := segR.reverse
    let pre := p.take (p.length - segR.length)
    match splitFirst ';' seg with
    | some (a, b) => (pre ++ a, b)
    | none => (p, [])
  else
    match splitFirst ';' p with
    | some (a, b) => (a, b)
    | none => (p, [])

/-- Query, params and path extraction: the stages of `urlparse` after the
fragment has been removed. -/
def parseQP (scheme netloc rest frag : List Char) : Url6 :=
  let (rest, query) :=
    match splitFirst '?' rest with
    | some (a, b) => (a, b)
    | none => (rest, [])
  let (path, params) :=
    if ';' ∈ rest then splitParams rest else (rest, [])
  ⟨scheme, netloc, path, params, query, frag⟩

/-- The stages of `urlparse` after the scheme has been split off. -/
def parseAfterScheme (scheme rest0 : List Char) : Url6 :=
  let (netloc, rest1) := splitNetloc rest0
  let (rest2, frag) :=
    match splitFirst '#' rest1 with
    | some (a, b) => (a, b)
    | none => (rest1, [])
  parseQP scheme netloc rest2 frag

/-- `urlparse(url, default_scheme)` on a pre-cleaned character list. -/
def urlparseCore (l : List Char) (default : List Char) : Url6 :=
  match splitScheme l with
  | some (s, r) => parseAfterScheme s r
  | none => parseAfterScheme default l

def urlparseD (l : List Char) (default : List Char) : Url6 :=
  urlparseCore (cleanUrl l) (cleanUrl default)

def urlparseC (l : List Char) : Url6 := urlparseD l []

/-- `urlunparse`: reattach params to the path, then `urlunsplit`. -/
def urlunparseC (u : Url6) : List Char :=
  let path := if u.params = [] then u.path else u.path ++ ';' :: u.params
  let url :=
    if u.netloc ≠ [] ∨ path.take 2 = ['/', '/'] then
      let p := if path ≠ [] ∧ path.take 1 ≠ ['/'] then '/' :: path else path
      '/' :: '/' :: u.netloc ++ p
    else path
  let url := if u.scheme ≠ [] then u.scheme ++ ':' :: url else url
  let url := if u.query ≠ [] then url ++ '?' :: u.query else url
  if u.frag ≠ [] then url ++ '#' :: u.frag else url

/-! ## `urllib.parse.urljoin` -/

def usesRelative : List (List Char) :=
  [[], "ftp".toList, "http".toList, "gopher".toList, "nntp".toList,
   "imap".toList, "wais".toList, "file".toList, "https".toList,
   "shttp".toList, "mms".toList, "prospero".toList, "rtsp".toList,
   "rtspu".toList, "sftp".toList, "svn".toList, "svn+ssh".toList,
   "ws".toList, "wss".toList]

def usesNetloc : List (List Char) :=
  [[], "ftp".toList, "http".toList, "gopher".toList, "nntp".toList,
   "telnet".toList, "imap".toList, "wais".toList, "file".toList,
   "mms".toList, "https".toList, "shttp".toList, "snews".toList,
   "prospero".toList, "rtsp".toList, "rtspu".toList, "rsync".toList,
   "svn".toList, "svn+ssh".toList, "sftp".toList, "nfs".toList,
   "git".toList, "git+ssh".toList, "ws".toList, "wss".toList,
   "itms-services".toList]

/-- `str.split('/')`: never returns an empty list. -/
def splitSlash : List Char → List (List Char)
  | [] => [[]]
  | c :: cs =>
      if c = '/' then [] :: splitSlash cs
      else
        match splitSlash cs with
        | a :: r => (c :: a) :: r
        | [] => [[c]]

/-- `'/'.join`. -/
def joinSlash : List (List Char) → List Char
  | [] => []
  | [x] => x
  | x :: y :: r => x ++ '/' :: joinSlash (y :: r)

/-- `segments[1:-1] = filter(None, segments[1:-1])`: drop empty segments,
keeping the first and last elements untouched. -/
def filterMidTail : List (List Char) → List (List Char)
  | [] => []
  | [y] => [y]
  | y :: ys => if y = [] then filterMidTail ys else y :: filterMidTail ys

def filterMiddle : List (List Char) → List (List Char)
  | [] => []
  | x :: rest => x :: filterMidTail rest

def resolveStep (acc : List (List Char)) (seg : List Char) : List (List Char) :=
  if seg = ['.', '.'] then acc.dropLast
  else if seg = ['.'] then acc
  else acc ++ [seg]

/-- The body of `urljoin` once both inputs are non-empty: `b` is the parsed
base, `u` the url parsed with the base's scheme as default. -/
def urljoinParsed (b : Url6) (url : List Char) (u : Url6) : List Char :=
  if ¬(u.scheme = b.scheme ∧ u.scheme ∈ usesRelative) then url
  else if u.scheme ∈ usesNetloc ∧ u.netloc ≠ [] then
    urlunparseC u
  else
    let netloc := if u.scheme ∈ usesNetloc then b.netloc else u.netloc
    if u.path = [] ∧ u.params = [] then
      let query := if u.query = [] then b.query else u.query
      urlunparseC ⟨u.scheme, netloc, b.path, b.params, query, u.frag⟩
    else
      let baseParts0 := splitSlash b.path
      let baseParts :=
        if baseParts0.getLastD [] ≠ [] then baseParts0.dropLast else baseParts0
      let segments :=
        if u.path.take 1 = ['/'] then splitSlash u.path
        else filterMiddle (baseParts ++ splitSlash u.path)
      let resolved := segments.foldl resolveStep []
      let resolved :=
        if segments.getLastD [] = ['.'] ∨ segments.getLastD [] = ['.', '.'] then
          resolved ++ [[]]
        else resolved
      let merged := joinSlash resolved
      let merged := if merged = [] then ['/'] else merged
      urlunparseC ⟨u.scheme, netloc, merged, u.params, u.query, u.frag⟩

def urljoinC (base url : List Char) : List Char :=
  if base = [] then url
  else if url = [] then base
  else
    urljoinParsed (urlparseC base) url (urlparseD url (urlparseC base).scheme)

/-! ## `normalize_url` (= `_normalize_url`) -/

def startsMailtoTelJs (l : List Char) : Bool :=
  "mailto:".toList.isPrefixOf l || "tel:".toList.isPrefixOf l ||
    "javascript:".toList.isPrefixOf l

def normCore (base link domain : List Char) : Option (List Char) :=
  if link = [] then none
  else if startsMailtoTelJs link then none
  else
    let abs := urljoinC base link
    let p := urlparseC abs
    if ¬(p.scheme = "http".toList ∨ p.scheme = "https".toList) then none
    else if p.netloc ≠ [] ∧ lowerL p.netloc ≠ lowerL domain then none
    else some (urlunparseC ⟨p.scheme, p.netloc, p.path, p.params, p.query, []⟩)

def normalize_url (base link domain : String) : Option String :=
  (normCore base.toList link.toList domain.toList).map List.asString

/-! ## Text helpers: `clean_text`, `text_is_forbidden` -/

/-- Python whitespace (`str.strip` / `str.split` with no argument), ASCII. -/
def pyWs (c : Char) : Bool :=
  c = ' ' || c = '\t' || c = '\n' || c = '\r' || c = '\x0b' || c = '\x0c'

def pyStrip (l : List Char) : List Char :=
  ((l.dropWhile pyWs).reverse.dropWhile pyWs).reverse

def pyStripS (s : String) : String := (pyStrip s.toList).asString

def splitWsGo (cur : List Char) : List Char → List (List Char)
  | [] => if cur = [] then [] else [cur.reverse]
  | c :: cs =>
      if pyWs c then
        if cur = [] then splitWsGo [] cs else cur.reverse :: splitWsGo [] cs
      else splitWsGo (c :: cur) cs

/-- `str.split()` with no argument: split on whitespace runs, no empties. -/
def pySplitWs (l : List Char) : List (List Char) := splitWsGo [] l

/-- `" ".join(text.strip().split())`. -/
def cleanTextL (l : List Char) : List Char :=
  List.intercalate [' '] (pySplitWs (pyStrip l))

def clean_text (s : String) : String := (cleanTextL s.toList).asString

/-- Substring test, as Python's `in` on strings. -/
def isSubL (pat : List Char) : List Char → Bool
  | [] => pat.isEmpty
  | c :: ls => pat.isPrefixOf (c :: ls) || isSubL pat ls

def FORBIDDEN_TEXT : List String :=
  ["privacy", "terms", "copyright", "contact-us", "contact us", "이메일무단수집"]

def text_is_forbidden (s : String) : Bool :=
  FORBIDDEN_TEXT.any (fun k => isSubL k.toList (lowerL s.toList))

def MENU_CLASS_HINTS : List String :=
  ["menu", "nav", "navbar", "gnb", "lnb", "main-nav", "site-nav", "sidebar",
   "drawer", "topbar"]

/-! ## DOM model (BeautifulSoup tags as a tree) -/

/-- An attribute value: plain string, or a token list for the multi-valued
`class` attribute (as the html parser of bs4 stores it). -/
inductive AttrV where
  | s (v : String)
  | ls (vs : List String)
  deriving Repr, DecidableEq

inductive Node where
  | tag (name : String) (attrs : List (String × AttrV)) (children : List Node)
  | txt (s : String)

/-- `(name, attrs)` of one ancestor tag. -/
abbrev TagInfo := String × List (String × AttrV)

def getAttr (attrs : List (String × AttrV)) (k : String) : Option AttrV :=
  (attrs.find? (fun p => p.1 = k)).map (fun p => p.2)

def hasAttr (attrs : List (String × AttrV)) (k : String) : Bool :=
  attrs.any (fun p => p.1 = k)

/-- Python truthiness of an attribute value (`None` is the `none` case). -/
def truthyAttr : Option AttrV → Bool
  | some (.s v) => v ≠ ""
  | some (.ls vs) => vs ≠ []
  | none => false

/-- `a or b` over attribute lookups. -/
def pyOrAttr (a b : Option AttrV) : Option AttrV :=
  if truthyAttr a then a else b

def joinSpace (vs : List String) : String :=
  (List.intercalate [' '] (vs.map String.toList)).asString

def classTokens (attrs : List (String × AttrV)) : List String :=
  match getAttr attrs "class" with
  | some (.ls vs) => vs
  | some (.s v) => [v]
  | none => []

/-! ## `derive_path` (= `_derive_path`) -/

/-- The `label` computed for one ancestor, before the common processing. -/
def ancestorLabel (name : String) (attrs : List (String × AttrV)) : Option AttrV :=
  if name = "nav" ∨ name = "header" then
    pyOrAttr (getAttr attrs "aria-label")
      (pyOrAttr (getAttr attrs "title") (getAttr attrs "id"))
  else if name = "ul" ∨ name = "ol" then
    pyOrAttr (getAttr attrs "aria-label") (getAttr attrs "class")
  else if name = "section" ∨ name = "div" then
    let classes := classTokens attrs
    if MENU_CLASS_HINTS.any
        (fun h => isSubL h.toList (lowerL (joinSpace classes).toList)) then
      some (.s (joinSpace classes))
    else none
  else none

def attrToStr : AttrV → String
  | .s v => v
  | .ls vs => joinSpace vs

def derivePathStep (path : List String) (anc : TagInfo) : List String :=
  let label := ancestorLabel anc.1 anc.2
  if truthyAttr label then
    match label with
    | some av =>
        let lbl := clean_text (attrToStr av)
        if lbl ≠ "" ∧ lbl ∉ path then path ++ [lbl] else path
    | none => path
  else path

/-- Walk the ancestors innermost-to-outermost, then reverse the collected
labels (`list(reversed(path))`). -/
def derive_path (ancs : List TagInfo) : List String :=
  (ancs.foldl derivePathStep []).reverse

/-! ## Traversal: `find_all`, `select`, `get_text` -/

mutual

def nodeStrings : Node → List String
  | .txt s => [s]
  | .tag _ _ children => nodesStrings children

def nodesStrings : List Node → List String
  | [] => []
  | n :: ns => nodeStrings n ++ nodesStrings ns

end

/-- `get_text(separator=" ", strip=True)`: strip every descendant string,
drop the ones that become empty, join with one space. -/
def getTextOf (children : List Node) : String :=
  (List.intercalate [' ']
    (((nodesStrings children).map (fun s => pyStrip s.toList)).filter
      (fun l => l ≠ []))).asString

/-- One `<a href=...>` occurrence: its attributes, its subtree, and its
ancestor chain (innermost first, document root excluded). -/
structure Anchor where
  attrs : List (String × AttrV)
  children : List Node
  ancs : List TagInfo

mutual

def anchorsNode (ancs : List TagInfo) : Node → List Anchor
  | .txt _ => []
  | .tag name attrs children =>
      (if name = "a" ∧ hasAttr attrs "href" then [⟨attrs, children, ancs⟩] else [])
        ++ anchorsList ((name, attrs) :: ancs) children

def anchorsList (ancs : List TagInfo) : List Node → List Anchor
  | [] => []
  | n :: ns => anchorsNode ancs n ++ anchorsList ancs ns

end

/-- One element occurrence found by `select`. -/
structure Elem where
  name : String
  attrs : List (String × AttrV)
  children : List Node
  ancs : List TagInfo

mutual

def elemsNode (ancs : List TagInfo) : Node → List Elem
  | .txt _ => []
  | .tag name attrs children =>
      ⟨name, attrs, children, ancs⟩ :: elemsList ((name, attrs) :: ancs) children

def elemsList (ancs : List TagInfo) : List Node → List Elem
  | [] => []
  | n :: ns => elemsNode ancs n ++ elemsList ancs ns

end

/-- `container.find_all("a", href=True)`: descendant anchors only. -/
def descAnchors (e : Elem) : List Anchor :=
  anchorsList ((e.name, e.attrs) :: e.ancs) e.children

def selectName (doc : List Node) (n : String) : List Elem :=
  (elemsList [] doc).filter (fun e => e.name = n)

/-- `soup.select("[role='navigation']")`. -/
def selectRole (doc : List Node) : List Elem :=
  (elemsList [] doc).filter (fun e => getAttr e.attrs "role" = some (.s "navigation"))

/-- `soup.select(".menu,.nav,...")`: one document-order pass, an element
matches when one of its class tokens is a hint. -/
def selectHints (doc : List Node) : List Elem :=
  (elemsList [] doc).filter
    (fun e => MENU_CLASS_HINTS.any (fun h => h ∈ classTokens e.attrs))

/-! ## `extract_candidates_from_soup` (= `_extract_candidates_from_soup`) -/

/-- A candidate dict, with the literal keys used by the source. -/
inductive CVal where
  | vs (v : String)
  | vl (vs : List String)
  deriving Repr, DecidableEq

abbrev Cand := List (String × CVal)
abbrev CandMap := List (String × Cand)

def anchorHref (a : Anchor) : String :=
  match getAttr a.attrs "href" with
  | some (.s v) => v
  | some (.ls vs) => joinSpace vs
  | none => ""

/-- `consider_link`: `none` when the anchor is rejected, else the keyed
candidate. -/
def considerLink (base domain : String) (a : Anchor) : Option (String × Cand) :=
  let text := clean_text (getTextOf a.children)
  if text = "" ∨ text_is_forbidden text then none
  else
    match normalize_url base (anchorHref a) domain with
    | none => none
    | some normalized =>
        if normalized = "" then none
        else
          some (normalized,
            [("text", .vs text), ("url", .vs normalized),
             ("path", .vl (derive_path a.ancs))])

def insertIfAbsent (m : CandMap) (k : String) (c : Cand) : CandMap :=
  if m.any (fun p => p.1 = k) then m else m ++ [(k, c)]

/-- The anchors fed to `consider_link`, in tier order: nav/header/role
containers first, then menu-class containers, then every anchor. -/
def consideredAnchors (doc : List Node) : List Anchor :=
  ((selectName doc "nav").flatMap descAnchors
    ++ (selectName doc "header").flatMap descAnchors
    ++ (selectRole doc).flatMap descAnchors)
  ++ (selectHints doc).flatMap descAnchors
  ++ anchorsList [] doc

def extract_candidates_from_soup (doc : List Node) (base domain : String) :
    CandMap :=
  (consideredAnchors doc).foldl
    (fun m a =>
      match considerLink base domain a with
      | none => m
      | some (k, c) => insertIfAbsent m k c)
    []

/-! ## Static crawler: `fetch_with_requests` (= `_fetch_with_requests`)

The network is abstracted as a function from URL to response: `none` models
`requests.RequestException`, `some` a response with status code, declared
content type, and the parsed document of the body. -/

structure Page where
  status : Nat
  contentType : String
  doc : List Node

abbrev Web := String → Option Page

/-- `"html" in content_type.lower()`. -/
def htmlOk (ct : String) : Bool := isSubL "html".toList (lowerL ct.toList)

/-- One line of the crawl trace: the fetched URL and the size of the result
map at fetch time. -/
structure LogEntry where
  url : String
  before : Nat
  deriving Repr, DecidableEq

structure CrawlState where
  queue : List (String × Int)
  visited : List String
  results : CandMap
  log : List LogEntry

/-- `for key, value in page_candidates.items(): if key not in results: ...` -/
def mergeResults (old new : CandMap) : CandMap :=
  new.foldl (fun m p => insertIfAbsent m p.1 p.2) old

/-- The links enqueued from one fully processed page: every anchor's href,
normalized against the page URL, kept when truthy and unvisited. -/
def enqueueLinks (doc : List Node) (u : String) (domain : String)
    (visited : List String) (d : Int) : List (String × Int) :=
  (anchorsList [] doc).filterMap (fun a =>
    match normalize_url u (anchorHref a) domain with
    | some n => if n ≠ "" ∧ n ∉ visited then some (n, d + 1) else none
    | none => none)

inductive StepRes where
  | next (s : CrawlState)
  | done (s : CrawlState)

/-- One iteration of the `while queue:` loop. -/
def crawlStep (web : Web) (domain : String) (depth : Int) (s : CrawlState) :
    StepRes :=
  match s.queue with
  | [] => .done s
  | (u, d) :: rest =>
      if u ∈ s.visited then .next { s with queue := rest }
      else
        let visited := s.visited ++ [u]
        let log := s.log ++ [⟨u, s.results.length⟩]
        match web u with
        | none => .next ⟨rest, visited, s.results, log⟩
        | some page =>
            if 400 ≤ page.status then .next ⟨rest, visited, s.results, log⟩
            else if ¬ htmlOk page.contentType then
              .next ⟨rest, visited, s.results, log⟩
            else
              let results :=
                mergeResults s.results (extract_candidates_from_soup page.doc u domain)
              let enq :=
                if d + 1 ≤ depth then enqueueLinks page.doc u domain visited d
                else []
              let s2 : CrawlState := ⟨rest ++ enq, visited, results, log⟩
              if 50 < results.length then .done s2 else .next s2

def crawlLoop (web : Web) (domain : String) (depth : Int) :
    Nat → CrawlState → Option CrawlState
  | 0, _ => none
  | n + 1, s =>
      match crawlStep web domain depth s with
      | .done f => some f
      | .next s2 => crawlLoop web domain depth n s2

/-- All normalized same-origin links of a page, used by the termination
measure (a superset of what is ever enqueued from that page). -/
def pageLinks (web : Web) (domain : String) (u : String) : List String :=
  match web u with
  | none => []
  | some page =>
      (anchorsList [] page.doc).filterMap
        (fun a => normalize_url u (anchorHref a) domain)

def linkWeight (web : Web) (domain : String) : Nat → String → Nat
  | 0, _ => 1
  | k + 1, u => 1 + ((pageLinks web domain u).map (linkWeight web domain k)).sum

def taskMeasure (web : Web) (domain : String) (depth : Int)
    (t : String × Int) : Nat :=
  linkWeight web domain ((depth - t.2).toNat + 1) t.1

def stateMeasure (web : Web) (domain : String) (depth : Int)
    (s : CrawlState) : Nat :=
  (s.queue.map (taskMeasure web domain depth)).sum

def initState (url : String) : CrawlState := ⟨[(url, 0)], [], [], []⟩

/-- The crawl: run the loop with provably sufficient fuel. -/
def fetch_with_requests (web : Web) (url domain : String) (depth : Int) :
    CrawlState :=
  (crawlLoop web domain depth
      (stateMeasure web domain depth (initState url) + 1)
      (initState url)).getD (initState url)

/-! ## Rendering crawler and orchestrator (`main`,
`_collect_menu_candidates_internal`)

The headless browser is abstracted as `renderOutcome : Option (List Node)`:
`none` models a missing engine (`ImportError`) or a navigation error, `some
doc` the rendered DOM captured by `page.content()`. -/

def renderFetch (renderOutcome : Option (List Node)) (url domain : String) :
    CandMap :=
  match renderOutcome with
  | none => []
  | some doc => extract_candidates_from_soup doc url domain

inductive PVal where
  | ps (v : String)
  | pm (menus : List Cand)
  deriving Repr, DecidableEq

def candStr (c : Cand) (k : String) : String :=
  match c.find? (fun p => p.1 = k) with
  | some (_, .vs v) => v
  | _ => ""

def lowerS (s : String) : String := (lowerL s.toList).asString

/-- Strict code-point lexicographic order, as Python compares strings. -/
def ltL : List Char → List Char → Bool
  | [], [] => false
  | [], _ :: _ => true
  | _ :: _, [] => false
  | a :: as, b :: bs =>
      if a.toNat < b.toNat then true
      else if b.toNat < a.toNat then false
      else ltL as bs

/-- Reflexive code-point lexicographic order. -/
def leL : List Char → List Char → Bool
  | [], _ => true
  | _ :: _, [] => false
  | a :: as, b :: bs =>
      if a.toNat < b.toNat then true
      else if b.toNat < a.toNat then false
      else leL as bs

/-- `key=lambda item: (item["text"].lower(), item["url"])`, as a Boolean
total order for the sort (lexicographic on the key pair). -/
def menuKeyLe (a b : Cand) : Bool :=
  let ta := lowerL (candStr a "text").toList
  let tb := lowerL (candStr b "text").toList
  ltL ta tb ||
    (ta = tb && leL (candStr a "url").toList (candStr b "url").toList)

/-- Stable insertion step: a new element goes after every already placed
element whose key is `≤` its key. -/
def insertSorted (x : Cand) : List Cand → List Cand
  | [] => [x]
  | y :: ys => if menuKeyLe y x then y :: insertSorted x ys else x :: y :: ys

/-- `sorted(candidates.values(), key=...)`: Python's sort is stable, and for
the total preorder induced by the key every stable sort agrees, so a stable
insertion sort is a faithful model. -/
def sortMenus (cands : CandMap) : List Cand :=
  (cands.map (fun p => p.2)).foldl (fun acc c => insertSorted c acc) []

structure CollectOut where
  payload : List (String × PVal)
  invokedRender : Bool
  staticCands : CandMap
  renderCands : CandMap

/-- The orchestrator shared by `extract_menu.main` and
`_collect_menu_candidates_internal`: `none` models the fatal bad-seed exit.
`invokedRender` records whether the rendering path was attempted. -/
def collectCore (web : Web) (renderOutcome : Option (List Node))
    (url : String) (depth : Int) : Option CollectOut :=
  let parsed := urlparseC url.toList
  if parsed.scheme = [] ∨ parsed.netloc = [] then none
  else
    let domain := parsed.netloc.asString
    let requestCands := (fetch_with_requests web url domain (max depth 0)).results
    let invoked := requestCands.length < 4
    let renderCands := if invoked then renderFetch renderOutcome url domain else []
    let usedRender := invoked ∧ renderCands ≠ []
    let source := if usedRender then "playwright" else "requests"
    let cands := if usedRender then renderCands else requestCands
    some ⟨[("source", .ps source), ("domain", .ps domain),
           ("menus", .pm (sortMenus cands))],
          invoked, requestCands, renderCands⟩

/-- The JSON payload written by `extract_menu.main`. -/
def extract_menu_main (web : Web) (renderOutcome : Option (List Node))
    (url : String) (depth : Int) : Option (List (String × PVal)) :=
  (collectCore web renderOutcome url depth).map (fun o => o.payload)

/-! ## Persistence: `_replace_system_menus`, `collect_system_menus` -/

structure MenuRow where
  system_code : String
  menu_name : Option String
  path : Option String
  created_by : String
  deriving Repr, DecidableEq

structure Db where
  menuRows : List MenuRow
  deriving Repr, DecidableEq

/-- Backend outcome of one supabase call (error responses raise
`ValueError` in the source). -/
inductive DbOutcome where
  | ok
  | fail
  deriving Repr, DecidableEq

/-- The keys of one item of `menus` that `_replace_system_menus` reads. -/
structure MenuIn where
  menu_name : Option String
  path : Option String
  deriving Repr, DecidableEq

def menusOf (db : Db) (sys : String) : List MenuRow :=
  db.menuRows.filter (fun r => r.system_code = sys)

/-- `_replace_system_menus`: a delete call, then a separate insert call.
The Boolean result is `false` when a `ValueError` is raised. -/
def replace_system_menus (db : Db) (sys : String) (menus : List MenuIn)
    (created_by : String) (deleteOutcome insertOutcome : DbOutcome) :
    Db × Bool :=
  match deleteOutcome with
  | .fail => (db, false)
  | .ok =>
      let db1 : Db := ⟨db.menuRows.filter (fun r => ¬ r.system_code = sys)⟩
      if menus = [] then (db1, true)
      else
        let payloads := menus.map (fun m => MenuRow.mk sys m.menu_name m.path created_by)
        match insertOutcome with
        | .fail => (db1, false)
        | .ok => (⟨db1.menuRows ++ payloads⟩, true)

/-- `a or b` on Python strings/None. -/
def pyOrS (a : Option String) (b : String) : String :=
  match a with
  | some v => if v ≠ "" then v else b
  | none => b

/-- `(created_by or record.get("updated_by") or record.get("created_by")
or "system").strip() or "system"`. -/
def collectCreator (callerCreated updatedBy createdBy : Option String) :
    String :=
  let raw := pyOrS callerCreated (pyOrS updatedBy (pyOrS createdBy "system"))
  let s := pyStripS raw
  if s ≠ "" then s else "system"

/-! ## Lemmas: first-seen-wins insertion -/

def lookupK (m : CandMap) (k : String) : Option (String × Cand) :=
  m.find? (fun p => p.1 = k)

def keyedFold (l : List (String × Cand)) (m : CandMap) : CandMap :=
  l.foldl (fun m p => insertIfAbsent m p.1 p.2) m

/-- The classification sequence: every considered anchor, in tier order,
through `consider_link`, keeping the accepted ones. -/
def considerSeq (doc : List Node) (base domain : String) :
    List (String × Cand) :=
  (consideredAnchors doc).filterMap (considerLink base domain)

theorem any_key_iff_lookup (m : CandMap) (k : String) :
    m.any (fun p => p.1 = k) = (lookupK m k).isSome := by
  induction m with
  | nil => rfl
  | cons p t ih =>
      by_cases h : p.1 = k
      · simp [lookupK, List.any_cons, List.find?, h]
      · simp [lookupK, List.any_cons, List.find?, h] at ih ⊢
        exact ih

theorem lookupK_insertIfAbsent (m : CandMap) (k' : String) (c : Cand)
    (k : String) :
    lookupK (insertIfAbsent m k' c) k =
      match lookupK m k with
      | some v => some v
      | none => if k' = k then some (k', c) else none := by
  unfold insertIfAbsent
  by_cases hmem : m.any (fun p => p.1 = k') = true
  · simp only [hmem, if_true]
    cases hl : lookupK m k with
    | some v => simp
    | none =>
        simp only []
        by_cases hk : k' = k
        · subst hk
          rw [any_key_iff_lookup, hl] at hmem
          simp at hmem
        · simp [hk, hl]
  · simp only [Bool.not_eq_true] at hmem
    simp only [hmem, Bool.false_eq_true, if_false]
    have happ : lookupK (m ++ [(k', c)]) k =
        (lookupK m k).or ([(k', c)].find? (fun p => p.1 = k)) := by
      simp only [lookupK, List.find?_append]
    cases hl : lookupK m k with
    | some v => simp [happ, hl]
    | none =>
        by_cases hk : k' = k
        · subst hk
          simp [happ, hl, List.find?]
        · simp [happ, hl, List.find?, hk]

theorem lookupK_keyedFold (l : List (String × Cand)) (m : CandMap)
    (k : String) :
    lookupK (keyedFold l m) k =
      match lookupK m k with
      | some v => some v
      | none => l.find? (fun p => p.1 = k) := by
  induction l generalizing m with
  | nil =>
      cases hl : lookupK m k <;> simp [keyedFold, hl]
  | cons p t ih =>
      show lookupK (keyedFold t (insertIfAbsent m p.1 p.2)) k = _
      rw [ih]
      rw [lookupK_insertIfAbsent]
      cases hl : lookupK m k with
      | some v => simp
      | none =>
          by_cases hk : p.1 = k
          · simp only [hk, if_true]
            have : (p :: t).find? (fun q => q.1 = k) = some p := by
              simp [List.find?, hk]
            simp [this]
            cases p with
            | mk a b => simp_all
          · simp only [hk, if_false]
            simp [List.find?, hk]

theorem keys_nodup_insertIfAbsent (m : CandMap) (k : String) (c : Cand)
    (h : (m.map (fun p => p.1)).Nodup) :
    ((insertIfAbsent m k c).map (fun p => p.1)).Nodup := by
  unfold insertIfAbsent
  by_cases hmem : m.any (fun p => p.1 = k) = true
  · simpa [hmem]
  · simp only [Bool.not_eq_true] at hmem
    simp only [hmem, Bool.false_eq_true, if_false]
    rw [List.map_append]
    simp only [List.map_cons, List.map_nil]
    rw [List.nodup_append]
    refine ⟨h, List.nodup_singleton k, ?_⟩
    intro a ha hb
    simp at hb
    subst hb
    simp [List.any_eq_true] at hmem
    rcases List.mem_map.mp ha with ⟨p, hp, hpk⟩
    exact hmem p.1 p.2 hp hpk

theorem keys_nodup_keyedFold (l : List (String × Cand)) (m : CandMap)
    (h : (m.map (fun p => p.1)).Nodup) :
    ((keyedFold l m).map (fun p => p.1)).Nodup := by
  induction l generalizing m with
  | nil => simpa [keyedFold]
  | cons p t ih =>
      exact ih _ (keys_nodup_insertIfAbsent m p.1 p.2 h)

theorem extract_eq_keyedFold (doc : List Node) (base domain : String) :
    extract_candidates_from_soup doc base domain =
      keyedFold (considerSeq doc base domain) [] := by
  unfold extract_candidates_from_soup considerSeq keyedFold
  generalize consideredAnchors doc = l
  suffices h : ∀ (m : CandMap),
      l.foldl (fun m a =>
        match considerLink base domain a with
        | none => m
        | some (k, c) => insertIfAbsent m k c) m =
      (l.filterMap (considerLink base domain)).foldl
        (fun m p => insertIfAbsent m p.1 p.2) m by
    exact h []
  induction l with
  | nil => intro m; rfl
  | cons a t ih =>
      intro m
      cases hc : considerLink base domain a with
      | none => simp [List.foldl_cons, hc, List.filterMap_cons, ih]
      | some p =>
          cases p with
          | mk k c => simp [List.foldl_cons, hc, List.filterMap_cons, ih]

/-! ## Lemmas: crawl termination measure -/

theorem linkWeight_pos (web : Web) (domain : String) :
    ∀ (k : Nat) (u : String), 1 ≤ linkWeight web domain k u
  | 0, _ => le_refl 1
  | k + 1, u => by simp [linkWeight]

theorem taskMeasure_pos (web : Web) (domain : String) (depth : Int)
    (t : String × Int) : 1 ≤ taskMeasure web domain depth t :=
  linkWeight_pos web domain _ _

theorem enq_sum_le (web : Web) (domain : String) (depth : Int)
    (as : List Anchor) (u : String) (visited : List String) (d : Int) :
    ((as.filterMap (fun a =>
        match normalize_url u (anchorHref a) domain with
        | some n => if n ≠ "" ∧ n ∉ visited then some (n, d + 1) else none
        | none => none)).map (taskMeasure web domain depth)).sum
      ≤ ((as.filterMap (fun a => normalize_url u (anchorHref a) domain)).map
          (linkWeight web domain ((depth - (d + 1)).toNat + 1))).sum := by
  induction as with
  | nil => simp
  | cons a t ih =>
      simp only [List.filterMap_cons]
      cases hn : normalize_url u (anchorHref a) domain with
      | none => simpa [hn] using ih
      | some n =>
          simp only [hn]
          by_cases hp : n ≠ "" ∧ n ∉ visited
          · rw [if_pos hp]
            simp only [List.map_cons, List.sum_cons]
            have ht : taskMeasure web domain depth (n, d + 1) =
                linkWeight web domain ((depth - (d + 1)).toNat + 1) n := rfl
            rw [ht]
            exact Nat.add_le_add_left ih _
          · rw [if_neg hp]
            simp only [List.map_cons, List.sum_cons]
            exact le_trans ih (Nat.le_add_left _ _)

/-- The enqueued links of a fully processed page weigh strictly less than
the dequeued task. -/
theorem enq_lt_task (web : Web) (domain : String) (depth : Int)
    (page : Page) (u : String) (d : Int) (visited : List String)
    (hw : web u = some page) :
    ((if d + 1 ≤ depth then enqueueLinks page.doc u domain visited d
      else []).map (taskMeasure web domain depth)).sum
      < taskMeasure web domain depth (u, d) := by
  by_cases hd : d + 1 ≤ depth
  · simp only [hd, if_true]
    have hkey : (depth - (d + 1)).toNat + 1 = (depth - d).toNat := by omega
    have h1 := enq_sum_le web domain depth (anchorsList [] page.doc) u visited d
    rw [hkey] at h1
    have hpl : pageLinks web domain u =
        (anchorsList [] page.doc).filterMap
          (fun a => normalize_url u (anchorHref a) domain) := by
      simp [pageLinks, hw]
    have htask : taskMeasure web domain depth (u, d) =
        1 + ((pageLinks web domain u).map
          (linkWeight web domain ((depth - d).toNat))).sum := by
      simp [taskMeasure, linkWeight]
    rw [htask, hpl]
    simp only [enqueueLinks]
    omega
  · simp only [hd, if_false, List.map_nil, List.sum_nil]
    exact taskMeasure_pos web domain depth (u, d)

theorem stateMeasure_next_lt (web : Web) (domain : String) (depth : Int)
    (s s2 : CrawlState) (h : crawlStep web domain depth s = .next s2) :
    stateMeasure web domain depth s2 < stateMeasure web domain depth s := by
  unfold crawlStep at h
  cases hq : s.queue with
  | nil => rw [hq] at h; exact absurd h (by simp)
  | cons t rest =>
      cases t with
      | mk u d =>
      rw [hq] at h
      simp only [] at h
      have hpos := taskMeasure_pos web domain depth (u, d)
      by_cases hv : u ∈ s.visited
      · simp only [hv, if_true] at h
        cases h
        simp only [stateMeasure, hq, List.map_cons, List.sum_cons]
        omega
      · simp only [hv, if_false] at h
        cases hw : web u with
        | none =>
            rw [hw] at h
            cases h
            simp only [stateMeasure, hq, List.map_cons, List.sum_cons]
            omega
        | some page =>
            rw [hw] at h
            simp only [] at h
            by_cases hst : 400 ≤ page.status
            · rw [if_pos hst] at h
              cases h
              simp only [stateMeasure, hq, List.map_cons, List.sum_cons]
              omega
            · rw [if_neg hst] at h
              by_cases hct : htmlOk page.contentType
              · rw [if_neg (by simpa using hct)] at h
                by_cases hbrk : 50 < (mergeResults s.results
                    (extract_candidates_from_soup page.doc u domain)).length
                · rw [if_pos hbrk] at h
                  exact absurd h (by simp)
                · rw [if_neg hbrk] at h
                  cases h
                  have hsum := enq_lt_task web domain depth page u d
                    (s.visited ++ [u]) hw
                  simp only [stateMeasure, hq, List.map_cons, List.sum_cons,
                    List.map_append, List.sum_append]
                  omega
              · rw [if_pos (by simpa using hct)] at h
                cases h
                simp only [stateMeasure, hq, List.map_cons, List.sum_cons]
                omega

theorem crawlLoop_isSome (web : Web) (domain : String) (depth : Int) :
    ∀ (n : Nat) (s : CrawlState), stateMeasure web domain depth s < n →
      (crawlLoop web domain depth n s).isSome = true := by
  intro n
  induction n with
  | zero => intro s h; omega
  | succ n ih =>
      intro s h
      show (match crawlStep web domain depth s with
        | .done f => some f
        | .next s2 => crawlLoop web domain depth n s2).isSome = true
      cases hstep : crawlStep web domain depth s with
      | done f => simp
      | next s2 =>
          simp only []
          exact ih s2 (by
            have := stateMeasure_next_lt web domain depth s s2 hstep
            omega)

theorem crawlLoop_empty (web : Web) (domain : String) (depth : Int)
    (n : Nat) (s : CrawlState) (hq : s.queue = []) (hn : 1 ≤ n) :
    crawlLoop web domain depth n s = some s := by
  cases n with
  | zero => omega
  | succ n =>
      show (match crawlStep web domain depth s with
        | .done f => some f
        | .next s2 => crawlLoop web domain depth n s2) = some s
      have : crawlStep web domain depth s = .done s := by
        unfold crawlStep
        rw [hq]
      rw [this]

/-- Invariant engine: a property preserved by every `next` step and turned
into `Q` at the final step holds of the loop's output. -/
theorem crawlLoop_inv (web : Web) (domain : String) (depth : Int)
    (P Q : CrawlState → Prop)
    (hnext : ∀ s s2, crawlStep web domain depth s = .next s2 → P s → P s2)
    (hdone : ∀ s f, crawlStep web domain depth s = .done f → P s → Q f) :
    ∀ (n : Nat) (s f : CrawlState), crawlLoop web domain depth n s = some f →
      P s → Q f := by
  intro n
  induction n with
  | zero => intro s f h; exact absurd h (by simp [crawlLoop])
  | succ n ih =>
      intro s f h hP
      have h2 : (match crawlStep web domain depth s with
          | StepRes.done g => some g
          | StepRes.next s2 => crawlLoop web domain depth n s2) = some f := h
      cases hstep : crawlStep web domain depth s with
      | done g =>
          rw [hstep] at h2
          simp at h2
          exact h2 ▸ hdone s g hstep hP
      | next s2 =>
          rw [hstep] at h2
          exact ih s2 f h2 (hnext s s2 hstep hP)

/-- Membership in the enqueued links forces depth `d + 1` and a URL outside
the visited set. -/
theorem enqueueLinks_mem_spec (doc : List Node) (u domain : String)
    (visited : List String) (d : Int) (t : String × Int)
    (ht : t ∈ enqueueLinks doc u domain visited d) :
    t.2 = d + 1 ∧ t.1 ∉ visited := by
  unfold enqueueLinks at ht
  rcases List.mem_filterMap.mp ht with ⟨a, _, ha⟩
  cases hn : normalize_url u (anchorHref a) domain with
  | none => simp [hn] at ha
  | some n =>
      simp only [hn] at ha
      by_cases hp : n ≠ "" ∧ n ∉ visited
      · rw [if_pos hp] at ha
        cases ha
        exact ⟨rfl, hp.2⟩
      · rw [if_neg hp] at ha
        exact absurd ha (by simp)

/-- Case analysis of one crawl step: empty queue, a visited-skip, or a fetch
with its effect on the state recorded. -/
theorem crawlStep_shape (web : Web) (domain : String) (depth : Int)
    (s : CrawlState) (r : StepRes) (h : crawlStep web domain depth s = r) :
    (s.queue = [] ∧ r = .done s)
    ∨ (∃ u d rest, s.queue = (u, d) :: rest ∧ u ∈ s.visited ∧
        r = .next ⟨rest, s.visited, s.results, s.log⟩)
    ∨ (∃ u d rest s2, s.queue = (u, d) :: rest ∧ u ∉ s.visited ∧
        s2.visited = s.visited ++ [u] ∧
        s2.log = s.log ++ [⟨u, s.results.length⟩] ∧
        (∃ enq, s2.queue = rest ++ enq ∧
          ∀ t ∈ enq, t.2 = d + 1 ∧ d + 1 ≤ depth ∧
            t.1 ∉ s.visited ∧ t.1 ≠ u) ∧
        (s2.results = s.results ∨ ∃ doc2, s2.results =
          mergeResults s.results (extract_candidates_from_soup doc2 u domain)) ∧
        ((s2.results = s.results ∧ r = .next s2)
          ∨ (r = .next s2 ∧ s2.results.length ≤ 50)
          ∨ r = .done s2)) := by
  unfold crawlStep at h
  cases hq : s.queue with
  | nil =>
      rw [hq] at h
      exact Or.inl ⟨rfl, h.symm⟩
  | cons t rest =>
      cases t with
      | mk u d =>
      rw [hq] at h
      simp only [] at h
      by_cases hv : u ∈ s.visited
      · rw [if_pos hv] at h
        exact Or.inr (Or.inl ⟨u, d, rest, rfl, hv, h.symm⟩)
      · rw [if_neg hv] at h
        refine Or.inr (Or.inr ?_)
        cases hw : web u with
        | none =>
            rw [hw] at h
            have h3 : StepRes.next
                (⟨rest, s.visited ++ [u], s.results,
                  s.log ++ [⟨u, s.results.length⟩]⟩ : CrawlState) = r := h
            exact ⟨u, d, rest,
              ⟨rest, s.visited ++ [u], s.results,
                s.log ++ [⟨u, s.results.length⟩]⟩,
              rfl, hv, rfl, rfl, ⟨[], by simp, by simp⟩, Or.inl rfl,
              Or.inl ⟨rfl, h3.symm⟩⟩
        | some page =>
            rw [hw] at h
            simp only [] at h
            by_cases hst : 400 ≤ page.status
            · rw [if_pos hst] at h
              exact ⟨u, d, rest,
                ⟨rest, s.visited ++ [u], s.results,
                  s.log ++ [⟨u, s.results.length⟩]⟩,
                rfl, hv, rfl, rfl, ⟨[], by simp, by simp⟩, Or.inl rfl,
                Or.inl ⟨rfl, h.symm⟩⟩
            · rw [if_neg hst] at h
              by_cases hct : htmlOk page.contentType
              · rw [if_neg (by simpa using hct)] at h
                have henv : ∀ t ∈ (if d + 1 ≤ depth then
                    enqueueLinks page.doc u domain (s.visited ++ [u]) d
                    else ([] : List (String × Int))),
                    t.2 = d + 1 ∧ d + 1 ≤ depth ∧ t.1 ∉ s.visited ∧ t.1 ≠ u := by
                  intro t ht
                  by_cases hd : d + 1 ≤ depth
                  · rw [if_pos hd] at ht
                    have hts := enqueueLinks_mem_spec page.doc u domain
                      (s.visited ++ [u]) d t ht
                    refine ⟨hts.1, hd, ?_, ?_⟩
                    · intro hc
                      exact hts.2 (by simp [hc])
                    · intro hc
                      exact hts.2 (by simp [hc])
                  · rw [if_neg hd] at ht
                    exact absurd ht (by simp)
                by_cases hbrk : 50 < (mergeResults s.results
                    (extract_candidates_from_soup page.doc u domain)).length
                · rw [if_pos hbrk] at h
                  exact ⟨u, d, rest,
                    ⟨rest ++ (if d + 1 ≤ depth then
                        enqueueLinks page.doc u domain (s.visited ++ [u]) d
                      else []),
                      s.visited ++ [u],
                      mergeResults s.results
                        (extract_candidates_from_soup page.doc u domain),
                      s.log ++ [⟨u, s.results.length⟩]⟩,
                    rfl, hv, rfl, rfl, ⟨_, rfl, henv⟩,
                    Or.inr ⟨page.doc, rfl⟩,
                    Or.inr (Or.inr h.symm)⟩
                · rw [if_neg hbrk] at h
                  exact ⟨u, d, rest,
                    ⟨rest ++ (if d + 1 ≤ depth then
                        enqueueLinks page.doc u domain (s.visited ++ [u]) d
                      else []),
                      s.visited ++ [u],
                      mergeResults s.results
                        (extract_candidates_from_soup page.doc u domain),
                      s.log ++ [⟨u, s.results.length⟩]⟩,
                    rfl, hv, rfl, rfl, ⟨_, rfl, henv⟩,
                    Or.inr ⟨page.doc, rfl⟩,
                    Or.inr (Or.inl ⟨h.symm, by
                      show (mergeResults s.results
                        (extract_candidates_from_soup page.doc u domain)).length ≤ 50
                      omega⟩)⟩
              · rw [if_pos (by simpa using hct)] at h
                exact ⟨u, d, rest,
                  ⟨rest, s.visited ++ [u], s.results,
                    s.log ++ [⟨u, s.results.length⟩]⟩,
                  rfl, hv, rfl, rfl, ⟨[], by simp, by simp⟩, Or.inl rfl,
                  Or.inl ⟨rfl, h.symm⟩⟩

theorem fetch_spec (web : Web) (url domain : String) (depth : Int) :
    crawlLoop web domain depth
      (stateMeasure web domain depth (initState url) + 1) (initState url)
      = some (fetch_with_requests web url domain depth) := by
  have h := crawlLoop_isSome web domain depth
    (stateMeasure web domain depth (initState url) + 1) (initState url)
    (by omega)
  rcases Option.isSome_iff_exists.mp h with ⟨f, hf⟩
  rw [fetch_with_requests, hf]
  rfl

/-- Every final state of the loop satisfies: the fetch log is duplicate-free
and all logged URLs are visited. -/
theorem fetch_log_nodup (web : Web) (url domain : String) (depth : Int) :
    ((fetch_with_requests web url domain depth).log.map
      (fun e => e.url)).Nodup := by
  have hinv := crawlLoop_inv web domain depth
    (fun s => (s.log.map (fun e => e.url)).Nodup ∧
      ∀ x ∈ s.log.map (fun e => e.url), x ∈ s.visited)
    (fun f => (f.log.map (fun e => e.url)).Nodup)
    (by
      intro s s2 hstep hP
      rcases crawlStep_shape web domain depth s _ hstep with
        ⟨_, habs⟩ | ⟨u, d, rest, _, hv, heq⟩ |
        ⟨u, d, rest, s3, hq, hv, hvis, hlog, _, _, hr⟩
      · exact absurd habs (by simp)
      · cases heq
        exact hP
      · have hs3 : s2 = s3 := by
          rcases hr with ⟨_, h1⟩ | ⟨h1, _⟩ | h1
          · cases h1; rfl
          · cases h1; rfl
          · exact absurd h1 (by simp)
        subst hs3
        constructor
        · rw [hlog]
          simp only [List.map_append, List.map_cons, List.map_nil]
          rw [List.nodup_append]
          refine ⟨hP.1, List.nodup_singleton u, ?_⟩
          intro x hx hx2
          simp at hx2
          subst hx2
          exact hv (hP.2 x hx)
        · intro x hx
          rw [hlog] at hx
          simp only [List.map_append, List.map_cons, List.map_nil,
            List.mem_append, List.mem_singleton] at hx
          rw [hvis]
          rcases hx with hx | hx
          · simp [hP.2 x hx]
          · simp [hx])
    (by
      intro s f hstep hP
      rcases crawlStep_shape web domain depth s _ hstep with
        ⟨_, heq⟩ | ⟨u, d, rest, _, hv, heq⟩ |
        ⟨u, d, rest, s3, hq, hv, hvis, hlog, _, _, hr⟩
      · cases heq
        exact hP.1
      · exact absurd heq (by simp)
      · have hs3 : f = s3 := by
          rcases hr with ⟨_, h1⟩ | ⟨h1, _⟩ | h1
          · exact absurd h1 (by simp)
          · exact absurd h1 (by simp)
          · cases h1; rfl
        subst hs3
        rw [hlog]
        simp only [List.map_append, List.map_cons, List.map_nil]
        rw [List.nodup_append]
        refine ⟨hP.1, List.nodup_singleton u, ?_⟩
        intro x hx hx2
        simp at hx2
        subst hx2
        exact hv (hP.2 x hx))
  exact hinv _ _ _ (fetch_spec web url domain depth) (by simp [initState])

/-- C8: every static crawl terminates in finitely many steps (the loop with
fuel one more than the measure of the initial state already reaches the
final state), and no URL is fetched twice within one run. -/
theorem C8_terminates_no_refetch (web : Web) (url domain : String)
    (depth : Int) :
    crawlLoop web domain depth
        (stateMeasure web domain depth (initState url) + 1) (initState url)
      = some (fetch_with_requests web url domain depth) ∧
    ((fetch_with_requests web url domain depth).log.map
      (fun e => e.url)).Nodup :=
  ⟨fetch_spec web url domain depth, fetch_log_nodup web url domain depth⟩

/-- C1 (amended): every page fetch happens while the result map still has at
most 50 entries; once it exceeds 50 the crawl stops fetching. -/
theorem C1_amended_fetch_cap (web : Web) (url domain : String) (depth : Int) :
    ∀ e ∈ (fetch_with_requests web url domain depth).log, e.before ≤ 50 := by
  have hinv := crawlLoop_inv web domain depth
    (fun s => (∀ e ∈ s.log, e.before ≤ 50) ∧ s.results.length ≤ 50)
    (fun f => ∀ e ∈ f.log, e.before ≤ 50)
    (by
      intro s s2 hstep hP
      rcases crawlStep_shape web domain depth s _ hstep with
        ⟨_, habs⟩ | ⟨u, d, rest, _, hv, heq⟩ |
        ⟨u, d, rest, s3, hq, hv, hvis, hlog, _, _, hr⟩
      · exact absurd habs (by simp)
      · cases heq
        exact hP
      · constructor
        · have hs3 : s2 = s3 := by
            rcases hr with ⟨_, h1⟩ | ⟨h1, _⟩ | h1
            · cases h1; rfl
            · cases h1; rfl
            · exact absurd h1 (by simp)
          subst hs3
          intro e he
          rw [hlog] at he
          simp only [List.mem_append, List.mem_singleton] at he
          rcases he with he | he
          · exact hP.1 e he
          · subst he
            exact hP.2
        · rcases hr with ⟨hres, h1⟩ | ⟨h1, hle⟩ | h1
          · cases h1
            rw [hres]
            exact hP.2
          · cases h1
            exact hle
          · exact absurd h1 (by simp))
    (by
      intro s f hstep hP
      rcases crawlStep_shape web domain depth s _ hstep with
        ⟨_, heq⟩ | ⟨u, d, rest, _, hv, heq⟩ |
        ⟨u, d, rest, s3, hq, hv, hvis, hlog, _, _, hr⟩
      · cases heq
        exact hP.1
      · exact absurd heq (by simp)
      · have hs3 : f = s3 := by
          rcases hr with ⟨_, h1⟩ | ⟨h1, _⟩ | h1
          · exact absurd h1 (by simp)
          · exact absurd h1 (by simp)
          · cases h1; rfl
        subst hs3
        intro e he
        rw [hlog] at he
        simp only [List.mem_append, List.mem_singleton] at he
        rcases he with he | he
        · exact hP.1 e he
        · subst he
          exact hP.2)
  exact hinv _ _ _ (fetch_spec web url domain depth) (by simp [initState])

/-- With `max_depth = 0`, a crawl fetches exactly the seed URL. -/
theorem depth0_seed_only (web : Web) (url domain : String) :
    (fetch_with_requests web url domain 0).log.map (fun e => e.url)
      = [url] := by
  have hspec := fetch_spec web url domain 0
  have hM : 1 ≤ stateMeasure web domain 0 (initState url) := by
    have := taskMeasure_pos web domain 0 (url, 0)
    simp [stateMeasure, initState]
    omega
  rcases crawlStep_shape web domain 0 (initState url) _ rfl with
    ⟨habs, _⟩ | ⟨u, d, rest, habs, hv, _⟩ |
    ⟨u, d, rest, s3, hq, hv, hvis, hlog, ⟨enq, hq3, henq⟩, _, hr⟩
  · exact absurd habs (by simp [initState])
  · have : u ∈ ([] : List String) := hv
    simp at this
  · have h5 : ((url, (0 : Int)) :: ([] : List (String × Int)))
        = (u, d) :: rest := hq
    injection h5 with h6 h7
    injection h6 with h8 h9
    subst h7; subst h8; subst h9
    have henil : enq = [] := by
      rcases enq with _ | ⟨t, ts⟩
      · rfl
      · have := (henq t (by simp)).2.1
        omega
    subst henil
    have hq3' : s3.queue = [] := by simpa using hq3
    have hlog3 : s3.log = [⟨url, 0⟩] := by
      rw [hlog]
      simp [initState]
    have hloop : crawlLoop web domain 0
        (stateMeasure web domain 0 (initState url) + 1) (initState url) =
        (match crawlStep web domain 0 (initState url) with
          | StepRes.done f => some f
          | StepRes.next s2 =>
              crawlLoop web domain 0
                (stateMeasure web domain 0 (initState url)) s2) := rfl
    rcases hr with ⟨_, h1⟩ | ⟨h1, _⟩ | h1
    · rw [hloop, h1] at hspec
      have hspec2 : crawlLoop web domain 0
          (stateMeasure web domain 0 (initState url)) s3 =
          some (fetch_with_requests web url domain 0) := hspec
      rw [crawlLoop_empty web domain 0 _ s3 hq3' hM] at hspec2
      have h4 : fetch_with_requests web url domain 0 = s3 := by
        injection hspec2 with h5
        exact h5.symm
      rw [h4, hlog3]
      rfl
    · rw [hloop, h1] at hspec
      have hspec2 : crawlLoop web domain 0
          (stateMeasure web domain 0 (initState url)) s3 =
          some (fetch_with_requests web url domain 0) := hspec
      rw [crawlLoop_empty web domain 0 _ s3 hq3' hM] at hspec2
      have h4 : fetch_with_requests web url domain 0 = s3 := by
        injection hspec2 with h5
        exact h5.symm
      rw [h4, hlog3]
      rfl
    · rw [hloop, h1] at hspec
      have hspec2 : some s3 = some (fetch_with_requests web url domain 0) :=
        hspec
      have h4 : fetch_with_requests web url domain 0 = s3 := by
        injection hspec2 with h5
        exact h5.symm
      rw [h4, hlog3]
      rfl

/-- C7: with `max_depth = 0` only the seed page is fetched; in general a
step dequeuing `(u, d)` only enqueues links at depth `d + 1` when
`d + 1 ≤ max_depth`, and never enqueues a URL already visited (or the page
URL itself). -/
theorem C7_depth_bound :
    (∀ (web : Web) (url domain : String),
      (fetch_with_requests web url domain 0).log.map (fun e => e.url)
        = [url]) ∧
    (∀ (web : Web) (domain : String) (depth : Int) (s s2 : CrawlState)
      (u : String) (d : Int) (rest : List (String × Int)),
      s.queue = (u, d) :: rest →
      (crawlStep web domain depth s = .next s2 ∨
        crawlStep web domain depth s = .done s2) →
      ∀ t ∈ s2.queue, t ∈ rest ∨
        (t.2 = d + 1 ∧ d + 1 ≤ depth ∧ t.1 ∉ s.visited ∧ t.1 ≠ u)) := by
  constructor
  · exact depth0_seed_only
  · intro web domain depth s s2 u d rest hq hstep t ht
    have hstep2 : ∃ r, crawlStep web domain depth s = r ∧
        (r = .next s2 ∨ r = .done s2) := by
      rcases hstep with h | h
      · exact ⟨_, h, Or.inl rfl⟩
      · exact ⟨_, h, Or.inr rfl⟩
    rcases hstep2 with ⟨r, hr, hrs⟩
    rcases crawlStep_shape web domain depth s r hr with
      ⟨habs, _⟩ | ⟨u2, d2, rest2, hq2, hv, heq⟩ |
      ⟨u2, d2, rest2, s3, hq2, hv, hvis, hlog, ⟨enq, hq3, henq⟩, _, hcase⟩
    · rw [hq] at habs
      simp at habs
    · rw [hq] at hq2
      cases hq2
      have hs2 : s2 = ⟨rest, s.visited, s.results, s.log⟩ := by
        rcases hrs with h2 | h2
        · rw [heq] at h2
          injection h2 with h3
          exact h3.symm
        · rw [heq] at h2
          simp at h2
      rw [hs2] at ht
      exact Or.inl ht
    · rw [hq] at hq2
      cases hq2
      have hs2 : s2 = s3 := by
        rcases hcase with ⟨_, h1⟩ | ⟨h1, _⟩ | h1 <;>
          rcases hrs with h2 | h2 <;> rw [h1] at h2 <;>
            first
              | (injection h2 with h3; exact h3.symm)
              | simp at h2
      rw [hs2, hq3] at ht
      rcases List.mem_append.mp ht with h | h
      · exact Or.inl h
      · have := henq t h
        exact Or.inr ⟨this.1, this.2.1, this.2.2.1, this.2.2.2⟩

/-! ## Orchestrator claims -/

def payloadMenus (p : List (String × PVal)) : List Cand :=
  match p.find? (fun q => q.1 = "menus") with
  | some (_, .pm m) => m
  | _ => []

def payloadSource (p : List (String × PVal)) : String :=
  match p.find? (fun q => q.1 = "source") with
  | some (_, .ps v) => v
  | _ => ""

/-- C10: a negative depth is clamped through `max(depth, 0)`, so the
extraction behaves exactly as with depth 0. -/
theorem C10_negative_depth_clamped (web : Web) (ro : Option (List Node))
    (url : String) (depth : Int) (h : depth < 0) :
    collectCore web ro url depth = collectCore web ro url 0 := by
  unfold collectCore
  rw [show max depth 0 = (0 : Int) from max_eq_right (le_of_lt h),
    show max (0 : Int) 0 = 0 from max_self 0]

theorem C4_fallback_policy (web : Web) (ro : Option (List Node))
    (url : String) (depth : Int) (o : CollectOut)
    (h : collectCore web ro url depth = some o) :
    (o.invokedRender = true ↔ o.staticCands.length < 4) ∧
    (o.staticCands.length < 4 → o.renderCands ≠ [] →
      payloadMenus o.payload = sortMenus o.renderCands) ∧
    (o.staticCands.length < 4 → o.renderCands = [] →
      payloadMenus o.payload = sortMenus o.staticCands) ∧
    (4 ≤ o.staticCands.length → o.renderCands = [] ∧
      payloadMenus o.payload = sortMenus o.staticCands) := by
  unfold collectCore at h
  by_cases hval : (urlparseC url.toList).scheme = [] ∨
      (urlparseC url.toList).netloc = []
  · rw [if_pos hval] at h
    exact absurd h (by simp)
  · rw [if_neg hval] at h
    injection h with h2
    subst h2
    dsimp only
    simp only [String.toList]
    by_cases hlt : ((fetch_with_requests web url
        ((urlparseC url.data).netloc.asString) (max depth 0)).results).length < 4
    · by_cases hre : renderFetch ro url
          ((urlparseC url.data).netloc.asString) = []
      · refine ⟨by simp [hlt], ?_, ?_, ?_⟩
        · intro _ hne
          rw [if_pos hlt] at hne
          exact absurd hre hne
        · intro _ _
          simp [payloadMenus, hlt, hre]
        · intro h4
          omega
      · refine ⟨by simp [hlt], ?_, ?_, ?_⟩
        · intro _ _
          simp [payloadMenus, hlt, hre]
        · intro _ he
          rw [if_pos hlt] at he
          exact absurd he hre
        · intro h4
          omega
    · refine ⟨by simp [hlt], ?_, ?_, ?_⟩
      · intro h4
        omega
      · intro h4
        omega
      · intro _
        refine ⟨by simp [hlt], ?_⟩
        simp [payloadMenus, hlt]

/-! Example inputs used by counterexamples and witnesses. -/

def exDocA : List Node :=
  [Node.tag "nav" []
    [Node.tag "a" [("href", AttrV.s "/b")] [Node.txt "B"],
     Node.tag "a" [("href", AttrV.s "/a")] [Node.txt "A"]]]

def exWebA : Web :=
  fun u => if u = "http://e/" then some ⟨200, "text/html", exDocA⟩ else none

def exRenderDoc : List Node :=
  [Node.tag "a" [("href", AttrV.s "/r")] [Node.txt "R"]]

/-- C4 witness at a concrete input: two static candidates trigger the
rendering path, whose non-empty result supersedes the static one. -/
theorem C4_fallback_policy_witness :
    ((collectCore exWebA (some exRenderDoc) "http://e/" 0).getD
        ⟨[], false, [], []⟩).invokedRender = true ↔
      ((collectCore exWebA (some exRenderDoc) "http://e/" 0).getD
        ⟨[], false, [], []⟩).staticCands.length < 4 :=
  (C4_fallback_policy exWebA (some exRenderDoc) "http://e/" 0 _ (by rfl)).1

/-! ## Candidate shape lemmas for C3 -/

theorem mem_insertIfAbsent (m : CandMap) (k : String) (c : Cand)
    (x : String × Cand) (hx : x ∈ insertIfAbsent m k c) :
    x ∈ m ∨ x = (k, c) := by
  unfold insertIfAbsent at hx
  by_cases hm : m.any (fun p => p.1 = k) = true
  · rw [if_pos hm] at hx
    exact Or.inl hx
  · rw [if_neg hm] at hx
    rcases List.mem_append.mp hx with h | h
    · exact Or.inl h
    · simp at h
      exact Or.inr h

theorem mem_keyedFold (l : List (String × Cand)) (m : CandMap)
    (x : String × Cand) (hx : x ∈ keyedFold l m) : x ∈ m ∨ x ∈ l := by
  induction l generalizing m with
  | nil => exact Or.inl hx
  | cons p t ih =>
      rcases ih (insertIfAbsent m p.1 p.2) hx with h | h
      · rcases mem_insertIfAbsent m p.1 p.2 x h with h2 | h2
        · exact Or.inl h2
        · refine Or.inr ?_
          rw [h2]
          simp
      · exact Or.inr (List.mem_cons_of_mem p h)

theorem considerLink_keys (base domain : String) (a : Anchor)
    (k : String) (c : Cand) (h : considerLink base domain a = some (k, c)) :
    c.map Prod.fst = ["text", "url", "path"] := by
  unfold considerLink at h
  dsimp only at h
  split at h
  · exact absurd h (by simp)
  · split at h
    · exact absurd h (by simp)
    · split at h
      · exact absurd h (by simp)
      · injection h with h2
        injection h2 with h3 h4
        rw [← h4]
        rfl

theorem extract_mem_keys (doc : List Node) (base domain : String)
    (p : String × Cand)
    (hp : p ∈ extract_candidates_from_soup doc base domain) :
    p.2.map Prod.fst = ["text", "url", "path"] := by
  rw [extract_eq_keyedFold] at hp
  rcases mem_keyedFold _ _ _ hp with h | h
  · simp at h
  · rcases List.mem_filterMap.mp h with ⟨a, _, ha⟩
    cases p with
    | mk k c => exact considerLink_keys base domain a k c ha

theorem mergeResults_eq_keyedFold (old new : CandMap) :
    mergeResults old new = keyedFold new old := rfl

theorem crawl_results_keys (web : Web) (url domain : String) (depth : Int) :
    ∀ p ∈ (fetch_with_requests web url domain depth).results,
      p.2.map Prod.fst = ["text", "url", "path"] := by
  have hinv := crawlLoop_inv web domain depth
    (fun s => ∀ p ∈ s.results, p.2.map Prod.fst = ["text", "url", "path"])
    (fun s => ∀ p ∈ s.results, p.2.map Prod.fst = ["text", "url", "path"])
    (by
      intro s s2 hstep hP
      rcases crawlStep_shape web domain depth s _ hstep with
        ⟨_, habs⟩ | ⟨u, d, rest, _, hv, heq⟩ |
        ⟨u, d, rest, s3, hq, hv, hvis, hlog, _, hres, hr⟩
      · exact absurd habs (by simp)
      · cases heq
        exact hP
      · have hs3 : s2 = s3 := by
          rcases hr with ⟨_, h1⟩ | ⟨h1, _⟩ | h1
          · cases h1; rfl
          · cases h1; rfl
          · exact absurd h1 (by simp)
        subst hs3
        rcases hres with hres | ⟨doc2, hres⟩
        · rw [hres]; exact hP
        · rw [hres]
          intro p hp
          rcases mem_keyedFold _ _ _ hp with h | h
          · exact hP p h
          · exact extract_mem_keys doc2 u domain p h)
    (by
      intro s f hstep hP
      rcases crawlStep_shape web domain depth s _ hstep with
        ⟨_, heq⟩ | ⟨u, d, rest, _, hv, heq⟩ |
        ⟨u, d, rest, s3, hq, hv, hvis, hlog, _, hres, hr⟩
      · cases heq
        exact hP
      · exact absurd heq (by simp)
      · have hs3 : f = s3 := by
          rcases hr with ⟨_, h1⟩ | ⟨h1, _⟩ | h1
          · exact absurd h1 (by simp)
          · exact absurd h1 (by simp)
          · cases h1; rfl
        subst hs3
        rcases hres with hres | ⟨doc2, hres⟩
        · rw [hres]; exact hP
        · rw [hres]
          intro p hp
          rcases mem_keyedFold _ _ _ hp with h | h
          · exact hP p h
          · exact extract_mem_keys doc2 u domain p h)
  exact hinv _ _ _ (fetch_spec web url domain depth) (by simp [initState])

theorem renderFetch_keys (ro : Option (List Node)) (url domain : String) :
    ∀ p ∈ renderFetch ro url domain,
      p.2.map Prod.fst = ["text", "url", "path"] := by
  cases ro with
  | none => intro p hp; simp [renderFetch] at hp
  | some doc => exact fun p hp => extract_mem_keys doc url domain p hp

theorem mem_insertSorted (x c : Cand) (l : List Cand)
    (hx : x ∈ insertSorted c l) : x = c ∨ x ∈ l := by
  induction l with
  | nil => simpa [insertSorted] using hx
  | cons y ys ih =>
      unfold insertSorted at hx
      by_cases hle : menuKeyLe y c = true
      · rw [if_pos hle] at hx
        rcases List.mem_cons.mp hx with h | h
        · exact Or.inr (by simp [h])
        · rcases ih h with h2 | h2
          · exact Or.inl h2
          · exact Or.inr (List.mem_cons_of_mem y h2)
      · rw [if_neg hle] at hx
        rcases List.mem_cons.mp hx with h | h
        · exact Or.inl h
        · exact Or.inr h

theorem mem_sortFold (vals : List Cand) (acc : List Cand) (x : Cand)
    (hx : x ∈ vals.foldl (fun acc c => insertSorted c acc) acc) :
    x ∈ acc ∨ x ∈ vals := by
  induction vals generalizing acc with
  | nil => exact Or.inl hx
  | cons v t ih =>
      rcases ih (insertSorted v acc) hx with h | h
      · rcases mem_insertSorted x v acc h with h2 | h2
        · exact Or.inr (by simp [h2])
        · exact Or.inl h2
      · exact Or.inr (List.mem_cons_of_mem v h)

theorem mem_sortMenus (cands : CandMap) (x : Cand)
    (hx : x ∈ sortMenus cands) : ∃ p ∈ cands, x = p.2 := by
  unfold sortMenus at hx
  rcases mem_sortFold _ _ _ hx with h | h
  · simp at h
  · rcases List.mem_map.mp h with ⟨p, hp, hpx⟩
    exact ⟨p, hp, hpx.symm⟩

/-- C3 (amended): a successful run yields a record with exactly the keys
`source`, `domain`, `menus`; the source value is exactly `"requests"` or
`"playwright"`, `"playwright"` precisely when the rendering path's non-empty
result was used; every menu element has exactly the keys `text`, `url`,
`path`. -/
theorem C3_amended_shape (web : Web) (ro : Option (List Node))
    (url : String) (depth : Int) (o : CollectOut)
    (h : collectCore web ro url depth = some o) :
    o.payload.map Prod.fst = ["source", "domain", "menus"] ∧
    (payloadSource o.payload = "requests" ∨
      payloadSource o.payload = "playwright") ∧
    (payloadSource o.payload = "playwright" ↔
      (o.staticCands.length < 4 ∧ o.renderCands ≠ [])) ∧
    (∀ c ∈ payloadMenus o.payload, c.map Prod.fst = ["text", "url", "path"]) := by
  unfold collectCore at h
  by_cases hval : (urlparseC url.toList).scheme = [] ∨
      (urlparseC url.toList).netloc = []
  · rw [if_pos hval] at h
    exact absurd h (by simp)
  · rw [if_neg hval] at h
    injection h with h2
    subst h2
    dsimp only
    simp only [String.toList]
    by_cases hlt : ((fetch_with_requests web url
        ((urlparseC url.data).netloc.asString) (max depth 0)).results).length < 4
    · by_cases hre : renderFetch ro url
          ((urlparseC url.data).netloc.asString) = []
      · refine ⟨rfl, Or.inl (by simp [payloadSource, hlt, hre]), ?_, ?_⟩
        · constructor
          · intro hs
            rw [show payloadSource _ = "requests" from
              by simp [payloadSource, hlt, hre]] at hs
            exact absurd hs (by decide)
          · intro hs
            rw [if_pos hlt] at hs
            exact absurd hre hs.2
        · intro c hc
          rw [show payloadMenus _ = sortMenus
              (fetch_with_requests web url
                ((urlparseC url.data).netloc.asString) (max depth 0)).results from
            by simp [payloadMenus, hlt, hre]] at hc
          rcases mem_sortMenus _ _ hc with ⟨p, hp, hcp⟩
          rw [hcp]
          exact crawl_results_keys web url _ _ p hp
      · refine ⟨rfl, Or.inr (by simp [payloadSource, hlt, hre]), ?_, ?_⟩
        · constructor
          · intro _
            exact ⟨hlt, by rw [if_pos hlt]; exact hre⟩
          · intro _
            simp [payloadSource, hlt, hre]
        · intro c hc
          rw [show payloadMenus _ = sortMenus (renderFetch ro url
              ((urlparseC url.data).netloc.asString)) from
            by simp [payloadMenus, hlt, hre]] at hc
          rcases mem_sortMenus _ _ hc with ⟨p, hp, hcp⟩
          rw [hcp]
          exact renderFetch_keys ro url _ p hp
    · refine ⟨rfl, Or.inl (by simp [payloadSource, hlt]), ?_, ?_⟩
      · constructor
        · intro hs
          rw [show payloadSource _ = "requests" from
            by simp [payloadSource, hlt]] at hs
          exact absurd hs (by decide)
        · intro hs
          exact absurd hs.1 hlt
      · intro c hc
        rw [show payloadMenus _ = sortMenus
            (fetch_with_requests web url
              ((urlparseC url.data).netloc.asString) (max depth 0)).results from
          by simp [payloadMenus, hlt]] at hc
        rcases mem_sortMenus _ _ hc with ⟨p, hp, hcp⟩
        rw [hcp]
        exact crawl_results_keys web url _ _ p hp

/-- C3 witness at a concrete input. -/
theorem C3_amended_shape_witness :
    ((collectCore exWebA none "http://e/" 0).getD
      ⟨[], false, [], []⟩).payload.map Prod.fst
      = ["source", "domain", "menus"] :=
  (C3_amended_shape exWebA none "http://e/" 0 _ (by rfl)).1

/-- C3 counterexample: a successful extraction whose `source` value is
`"requests"` (neither `"static"` nor `"rendered"`) and whose menu elements
carry the key `path`, not `breadcrumb_path`. -/
theorem C3_source_counterexample :
    payloadSource ((extract_menu_main exWebA none "http://e/" 0).getD [])
      = "requests" ∧
    ¬("requests" = "static" ∨ "requests" = "rendered") ∧
    ((payloadMenus ((extract_menu_main exWebA none "http://e/" 0).getD [])).all
      (fun c => decide (c.map Prod.fst = ["text", "url", "path"] ∧
        "breadcrumb_path" ∉ c.map Prod.fst))) = true := by
  refine ⟨by decide, by decide, by decide⟩

/-- C10 witness at a concrete input. -/
theorem C10_negative_depth_clamped_witness :
    collectCore exWebA none "http://e/" (-1)
      = collectCore exWebA none "http://e/" 0 :=
  C10_negative_depth_clamped exWebA none "http://e/" (-1) (by norm_num)

/-! ## C1: the 50-entry stop is a halt, not a cap on the returned map -/

def exDocBig : List Node :=
  [Node.tag "nav" []
    ((List.range 51).map (fun i =>
      Node.tag "a" [("href", AttrV.s ("/l" ++ toString i))]
        [Node.txt ("L" ++ toString i)]))]

def exWebBig : Web :=
  fun u => if u = "http://e/" then some ⟨200, "text/html", exDocBig⟩ else none

set_option maxRecDepth 8000 in
/-- C1 counterexample: a single page with 51 same-origin menu-like links
yields a returned result map of 51 entries — the map is not capped at 50,
because a page's candidates are merged in full before the stop check. -/
theorem C1_cap_counterexample :
    (fetch_with_requests exWebBig "http://e/" "e" 0).results.length = 51 ∧
    ¬ (fetch_with_requests exWebBig "http://e/" "e" 0).results.length ≤ 50 := by
  refine ⟨by decide, by decide⟩

/-- C1 witness at a concrete input. -/
theorem C1_amended_fetch_cap_witness :
    (⟨"http://e/", 0⟩ : LogEntry).before ≤ 50 :=
  C1_amended_fetch_cap exWebA "http://e/" "e" 0 ⟨"http://e/", 0⟩ (by decide)

/-! ## C2 and C9: menu replacement and attribution -/

def exDb : Db := ⟨[⟨"S", some "Old", some "/old", "bob"⟩]⟩

def exMenuIn : MenuIn := ⟨some "New", some "/new"⟩

/-- C2 counterexample: the delete call succeeds and the separate insert call
fails; the operation raises, yet the system's stored menu set has changed
(the old rows are gone) — not all-or-nothing. -/
theorem C2_transactional_counterexample :
    (replace_system_menus exDb "S" [exMenuIn] "carol"
      DbOutcome.ok DbOutcome.fail).2 = false ∧
    menusOf (replace_system_menus exDb "S" [exMenuIn] "carol"
      DbOutcome.ok DbOutcome.fail).1 "S" ≠ menusOf exDb "S" := by
  refine ⟨by decide, by decide⟩

theorem filter_out_filter (l : List MenuRow) (sys : String) :
    (l.filter (fun r => ¬ r.system_code = sys)).filter
      (fun r => r.system_code = sys) = [] := by
  induction l with
  | nil => rfl
  | cons r t ih =>
      by_cases hr : r.system_code = sys
      · simp [hr, ih]
      · simp [hr, ih]

theorem filter_payloads (menus : List MenuIn) (sys cb : String) :
    (menus.map (fun m => MenuRow.mk sys m.menu_name m.path cb)).filter
      (fun r => r.system_code = sys) =
      menus.map (fun m => MenuRow.mk sys m.menu_name m.path cb) := by
  induction menus with
  | nil => rfl
  | cons m t ih => simp [ih]

/-- C2 (amended): replacement is a delete call followed by a separate insert
call.  A failed delete leaves the store unchanged; a failed insert after a
successful delete leaves the system's menu set empty (the old rows are
lost); when both succeed the system's rows are exactly the new set. -/
theorem C2_amended_two_phase (db : Db) (sys : String) (menus : List MenuIn)
    (cb : String) :
    replace_system_menus db sys menus cb DbOutcome.fail DbOutcome.ok
      = (db, false) ∧
    replace_system_menus db sys menus cb DbOutcome.fail DbOutcome.fail
      = (db, false) ∧
    (menus ≠ [] →
      (replace_system_menus db sys menus cb DbOutcome.ok DbOutcome.fail).2
        = false ∧
      menusOf (replace_system_menus db sys menus cb
        DbOutcome.ok DbOutcome.fail).1 sys = []) ∧
    menusOf (replace_system_menus db sys menus cb
      DbOutcome.ok DbOutcome.ok).1 sys
      = menus.map (fun m => MenuRow.mk sys m.menu_name m.path cb) := by
  refine ⟨rfl, rfl, ?_, ?_⟩
  · intro hm
    unfold replace_system_menus
    rw [if_neg hm]
    exact ⟨rfl, filter_out_filter db.menuRows sys⟩
  · unfold replace_system_menus
    by_cases hm : menus = []
    · rw [if_pos hm]
      subst hm
      simpa [menusOf] using filter_out_filter db.menuRows sys
    · rw [if_neg hm]
      show (db.menuRows.filter (fun r => ¬ r.system_code = sys)
        ++ menus.map (fun m => MenuRow.mk sys m.menu_name m.path cb)).filter
          (fun r => r.system_code = sys) = _
      rw [List.filter_append, filter_out_filter, filter_payloads]
      rfl

/-- C2 witness at a concrete input. -/
theorem C2_amended_two_phase_witness :
    (replace_system_menus exDb "S" [exMenuIn] "carol"
      DbOutcome.ok DbOutcome.fail).2 = false ∧
    menusOf (replace_system_menus exDb "S" [exMenuIn] "carol"
      DbOutcome.ok DbOutcome.fail).1 "S" = [] :=
  (C2_amended_two_phase exDb "S" [exMenuIn] "carol").2.2.1 (by decide)

/-- C9 counterexample: with an explicit caller value `" alice "`, the stored
attribution is the stripped `"alice"`, not the caller-supplied value. -/
theorem C9_chain_counterexample :
    collectCreator (some " alice ") (some "bob") (some "carol") = "alice" ∧
    "alice" ≠ " alice " := by
  refine ⟨by decide, by decide⟩

/-- C9 (amended): every row inserted by a replacement carries the computed
creator; the creator is the first non-empty value of caller → last updater →
creator, whitespace-stripped, with `"system"` when the chain is empty or the
picked value is blank. -/
theorem C9_amended_attribution :
    (∀ (db : Db) (sys : String) (menus : List MenuIn)
        (del ins : DbOutcome) (creator : String),
      ∀ r ∈ (replace_system_menus db sys menus creator del ins).1.menuRows,
        r ∈ db.menuRows ∨ r.created_by = creator) ∧
    (∀ (v : String) (u c : Option String), v ≠ "" →
      collectCreator (some v) u c =
        (if pyStripS v = "" then "system" else pyStripS v)) ∧
    (∀ (v : String) (c : Option String), v ≠ "" →
      collectCreator none (some v) c =
        (if pyStripS v = "" then "system" else pyStripS v)) ∧
    (∀ v : String, v ≠ "" →
      collectCreator none none (some v) =
        (if pyStripS v = "" then "system" else pyStripS v)) ∧
    (∀ u c, collectCreator (some "") u c = collectCreator none u c) ∧
    (∀ c, collectCreator none (some "") c = collectCreator none none c) ∧
    collectCreator none none none = "system" := by
  refine ⟨?_, ?_, ?_, ?_, ?_, ?_, rfl⟩
  · intro db sys menus del ins creator r hr
    unfold replace_system_menus at hr
    cases del with
    | fail => exact Or.inl hr
    | ok =>
        by_cases hm : menus = []
        · rw [if_pos hm] at hr
          exact Or.inl (List.mem_of_mem_filter hr)
        · rw [if_neg hm] at hr
          cases ins with
          | fail => exact Or.inl (List.mem_of_mem_filter hr)
          | ok =>
              rcases List.mem_append.mp hr with h | h
              · exact Or.inl (List.mem_of_mem_filter h)
              · rcases List.mem_map.mp h with ⟨m, _, hm2⟩
                refine Or.inr ?_
                rw [← hm2]
  · intro v u c hv
    by_cases hs : pyStripS v = "" <;>
      simp [collectCreator, pyOrS, hv, hs]
  · intro v c hv
    by_cases hs : pyStripS v = "" <;>
      simp [collectCreator, pyOrS, hv, hs]
  · intro v hv
    by_cases hs : pyStripS v = "" <;>
      simp [collectCreator, pyOrS, hv, hs]
  · intro u c
    rfl
  · intro c
    rfl

/-- C7 witness at a concrete input: from the seed state at depth bound 1,
the first step enqueues the page's links at depth 1. -/
theorem C7_depth_bound_witness :
    (("http://e/b" : String), (1 : Int)) ∈ ([] : List (String × Int)) ∨
    (((("http://e/b" : String), (1 : Int)) : String × Int).2 = 0 + 1 ∧
      (0 : Int) + 1 ≤ 1 ∧
      ("http://e/b" : String) ∉ (initState "http://e/").visited ∧
      ("http://e/b" : String) ≠ "http://e/") :=
  C7_depth_bound.2 exWebA "e" 1 (initState "http://e/")
    ⟨[("http://e/b", 1), ("http://e/a", 1)], ["http://e/"],
      mergeResults [] (extract_candidates_from_soup exDocA "http://e/" "e"),
      [⟨"http://e/", 0⟩]⟩
    "http://e/" 0 [] rfl (Or.inl (by rfl)) ("http://e/b", 1) (by decide)

/-- C9 witness at a concrete input. -/
theorem C9_amended_attribution_witness :
    collectCreator (some " alice ") none none =
      (if pyStripS " alice " = "" then "system" else pyStripS " alice ") :=
  C9_amended_attribution.2.1 " alice " none none (by decide)

/-! ## C5: fragment-insensitivity of the Normalizer.

The development below relates the parse of `X ++ '#' :: f` to the parse of a
hash-free `X`, and shows `urljoin` preserves agreement-up-to-fragment. -/

/-- The five non-fragment components agree. -/
def sameExceptFrag (p q : Url6) : Prop :=
  p.scheme = q.scheme ∧ p.netloc = q.netloc ∧ p.path = q.path ∧
  p.params = q.params ∧ p.query = q.query

theorem sameExceptFrag.refl (p : Url6) : sameExceptFrag p p :=
  ⟨rfl, rfl, rfl, rfl, rfl⟩

instance (p q : Url6) : Decidable (sameExceptFrag p q) := by
  unfold sameExceptFrag
  infer_instance

theorem cleanUrl_append (a b : List Char) :
    cleanUrl (a ++ b) = cleanUrl a ++ cleanUrl b := by
  simp [cleanUrl]

theorem cleanUrl_hash (f : List Char) :
    cleanUrl ('#' :: f) = '#' :: cleanUrl f := rfl

theorem mem_cleanUrl (c : Char) (l : List Char) (h : c ∈ cleanUrl l) :
    c ∈ l :=
  List.mem_of_mem_filter h

theorem splitFirst_none (c : Char) (l : List Char) (h : c ∉ l) :
    splitFirst c l = none := by
  induction l with
  | nil => rfl
  | cons d ds ih =>
      have : ¬ d = c := fun hc => h (by simp [hc])
      simp only [splitFirst, this, if_false]
      rw [ih (fun hc => h (List.mem_cons_of_mem d hc))]

theorem splitFirst_append (c : Char) (a b : List Char) (h : c ∉ a) :
    splitFirst c (a ++ c :: b) = some (a, b) := by
  induction a with
  | nil => simp [splitFirst]
  | cons d ds ih =>
      have hd : ¬ d = c := fun hc => h (by simp [hc])
      simp only [List.cons_append, splitFirst, hd, if_false]
      rw [show ds.append (c :: b) = ds ++ c :: b from rfl,
        ih (fun hc => h (List.mem_cons_of_mem d hc))]

theorem splitFirst_parts (c : Char) (l a b : List Char)
    (h : splitFirst c l = some (a, b)) :
    (∀ d ∈ a, d ∈ l ∧ d ≠ c) ∧ (∀ d ∈ b, d ∈ l) := by
  induction l generalizing a with
  | nil => exact absurd h (by simp [splitFirst])
  | cons e es ih =>
      unfold splitFirst at h
      by_cases he : e = c
      · rw [if_pos he] at h
        injection h with h2
        injection h2 with h3 h4
        subst h3; subst h4
        exact ⟨by simp, fun d hd => by simp [hd]⟩
      · rw [if_neg he] at h
        cases hs : splitFirst c es with
        | none => rw [hs] at h; exact absurd h (by simp)
        | some p =>
            cases p with
            | mk a2 b2 =>
            rw [hs] at h
            injection h with h2
            injection h2 with h3 h4
            subst h4
            rcases ih a2 hs with ⟨ha, hb⟩
            constructor
            · intro d hd
              rw [← h3] at hd
              rcases List.mem_cons.mp hd with hd2 | hd2
              · subst hd2
                exact ⟨by simp, he⟩
              · exact ⟨List.mem_cons_of_mem e (ha d hd2).1, (ha d hd2).2⟩
            · intro d hd
              exact List.mem_cons_of_mem e (hb d hd)

theorem takeWhile_append_stop (p : Char → Bool) (a : List Char) (c : Char)
    (f : List Char) (hc : p c = false) :
    (a ++ c :: f).takeWhile p = a.takeWhile p := by
  induction a with
  | nil => simp [List.takeWhile, hc]
  | cons d ds ih =>
      by_cases hd : p d = true
      · simp [List.takeWhile_cons, hd, ih]
      · simp only [Bool.not_eq_true] at hd
        simp [List.takeWhile_cons, hd]

theorem dropWhile_append_stop (p : Char → Bool) (a : List Char) (c : Char)
    (f : List Char) (hc : p c = false) :
    (a ++ c :: f).dropWhile p = a.dropWhile p ++ c :: f := by
  induction a with
  | nil => simp [List.dropWhile, hc]
  | cons d ds ih =>
      by_cases hd : p d = true
      · simp [List.dropWhile_cons, hd, ih]
      · simp only [Bool.not_eq_true] at hd
        simp [List.dropWhile_cons, hd]

theorem take2_append_hash (a : List Char) (f : List Char) (ha : '#' ∉ a) :
    ((a ++ '#' :: f).take 2 = ['/', '/']) ↔ (a.take 2 = ['/', '/']) := by
  cases a with
  | nil =>
      simp only [List.nil_append, List.take]
      cases f <;> simp
  | cons c₁ t =>
      cases t with
      | nil =>
          have h1 : ¬ c₁ = '#' := fun hc => ha (by simp [hc])
          simp
      | cons c₂ t2 => simp

theorem schemeGo_append_hash (T : List Char) :
    ∀ (R : List Char) (acc : List Char), '#' ∉ R →
    schemeGo acc (R ++ '#' :: T) =
      match schemeGo acc R with
      | some (s, r) => some (s, r ++ '#' :: T)
      | none => none := by
  intro R
  induction R with
  | nil =>
      intro acc _
      show schemeGo acc ('#' :: T) = _
      have h1 : ¬ ('#' : Char) = ':' := by decide
      have h2 : schemeChar '#' = false := by decide
      simp [schemeGo, h1, h2]
  | cons c cs ih =>
      intro acc hR
      have hc : c ≠ '#' := fun hc => hR (by simp [hc])
      by_cases h1 : c = ':'
      · simp [schemeGo, h1]
      · by_cases h2 : schemeChar c = true
        · simp only [List.cons_append, schemeGo, h1, if_false, h2, if_true]
          exact ih (c :: acc) (fun hm => hR (List.mem_cons_of_mem c hm))
        · simp only [Bool.not_eq_true] at h2
          simp [schemeGo, h1, h2]

theorem splitScheme_append_hash (A T : List Char) (hA : '#' ∉ A) :
    splitScheme (A ++ '#' :: T) =
      match splitScheme A with
      | some (s, r) => some (s, r ++ '#' :: T)
      | none => none := by
  cases A with
  | nil =>
      show splitScheme ('#' :: T) = _
      have : isAsciiAlphaC '#' = false := by decide
      simp [splitScheme, this]
  | cons c cs =>
      have hc : c ≠ '#' := fun h => hA (by simp [h])
      by_cases h1 : isAsciiAlphaC c = true
      · simp only [List.cons_append, splitScheme, h1, if_true]
        exact schemeGo_append_hash T cs [c]
          (fun hm => hA (List.mem_cons_of_mem c hm))
      · simp only [Bool.not_eq_true] at h1
        simp [splitScheme, h1]

theorem schemeGo_rest_mem :
    ∀ (R acc s r : List Char), schemeGo acc R = some (s, r) →
      ∀ c ∈ r, c ∈ R := by
  intro R
  induction R with
  | nil => intro acc s r h; exact absurd h (by simp [schemeGo])
  | cons c cs ih =>
      intro acc s r h d hd
      unfold schemeGo at h
      by_cases h1 : c = ':'
      · rw [if_pos h1] at h
        injection h with h2
        injection h2 with h3 h4
        subst h4
        exact List.mem_cons_of_mem c hd
      · rw [if_neg h1] at h
        by_cases h2 : schemeChar c = true
        · rw [if_pos h2] at h
          exact List.mem_cons_of_mem c (ih (c :: acc) s r h d hd)
        · simp only [Bool.not_eq_true] at h2
          rw [h2] at h
          exact absurd h (by simp)

theorem splitScheme_rest_mem (A s r : List Char)
    (h : splitScheme A = some (s, r)) : ∀ c ∈ r, c ∈ A := by
  cases A with
  | nil => exact absurd h (by simp [splitScheme])
  | cons c cs =>
      have h0 : (if isAsciiAlphaC c = true then schemeGo [c] cs else none)
          = some (s, r) := h
      clear h
      rename' h0 => h
      by_cases h1 : isAsciiAlphaC c = true
      · rw [if_pos h1] at h
        intro d hd
        exact List.mem_cons_of_mem c (schemeGo_rest_mem cs [c] s r h d hd)
      · rw [if_neg h1] at h
        exact absurd h (by simp)

theorem splitNetloc_append_hash (R T : List Char) (hR : '#' ∉ R) :
    splitNetloc (R ++ '#' :: T) =
      ((splitNetloc R).1, (splitNetloc R).2 ++ '#' :: T) := by
  unfold splitNetloc
  by_cases h2 : R.take 2 = ['/', '/']
  · rw [if_pos h2, if_pos ((take2_append_hash R T hR).mpr h2)]
    have hlen : 2 ≤ R.length := by
      by_contra hlen
      push_neg at hlen
      interval_cases h : R.length
      · rw [List.take_of_length_le (by omega)] at h2
        subst h2
        simp at h
      · rw [List.take_of_length_le (by omega)] at h2
        rw [h2] at h
        simp at h
    have hdrop : (R ++ '#' :: T).drop 2 = R.drop 2 ++ '#' :: T :=
      List.drop_append_of_le_length hlen
    rw [hdrop]
    have hstop : (fun c => !netlocStop c) '#' = false := by decide
    have hd2 : '#' ∉ R.drop 2 :=
      fun hm => hR ((List.drop_sublist 2 R).subset hm)
    rw [takeWhile_append_stop _ _ _ _ hstop,
      dropWhile_append_stop _ _ _ _ hstop]
  · rw [if_neg h2,
      if_neg (fun hc => h2 ((take2_append_hash R T hR).mp hc))]

theorem splitNetloc_rest_mem (R : List Char) :
    ∀ c ∈ (splitNetloc R).2, c ∈ R := by
  unfold splitNetloc
  by_cases h2 : R.take 2 = ['/', '/']
  · rw [if_pos h2]
    intro c hc
    exact (List.drop_sublist 2 R).subset ((List.dropWhile_sublist _).subset hc)
  · rw [if_neg h2]
    exact fun c hc => hc

theorem parseQP_frag_irrel (s n r f1 f2 : List Char) :
    sameExceptFrag (parseQP s n r f1) (parseQP s n r f2) := by
  unfold parseQP
  cases hq : splitFirst '?' r with
  | none =>
      by_cases hsc : ';' ∈ r <;> simp [hq, hsc, sameExceptFrag]
  | some p =>
      cases p with
      | mk a b =>
          by_cases hsc : ';' ∈ a <;> simp [hq, hsc, sameExceptFrag]

theorem parseAfterScheme_frag2 (s R T1 T2 : List Char) (hR : '#' ∉ R) :
    sameExceptFrag (parseAfterScheme s (R ++ '#' :: T1))
      (parseAfterScheme s (R ++ '#' :: T2)) := by
  unfold parseAfterScheme
  rw [splitNetloc_append_hash R T1 hR, splitNetloc_append_hash R T2 hR]
  dsimp only
  have hrest : '#' ∉ (splitNetloc R).2 :=
    fun hm => hR (splitNetloc_rest_mem R '#' hm)
  rw [splitFirst_append '#' _ T1 hrest, splitFirst_append '#' _ T2 hrest]
  exact parseQP_frag_irrel _ _ _ _ _

theorem parseAfterScheme_frag1 (s R T : List Char) (hR : '#' ∉ R) :
    sameExceptFrag (parseAfterScheme s (R ++ '#' :: T))
      (parseAfterScheme s R) := by
  unfold parseAfterScheme
  rw [splitNetloc_append_hash R T hR]
  dsimp only
  have hrest : '#' ∉ (splitNetloc R).2 :=
    fun hm => hR (splitNetloc_rest_mem R '#' hm)
  rw [splitFirst_append '#' _ T hrest, splitFirst_none '#' _ hrest]
  exact parseQP_frag_irrel _ _ _ _ _

theorem hash_decomp (W : List Char) :
    '#' ∉ W ∨ ∃ A B, W = A ++ '#' :: B ∧ '#' ∉ A := by
  induction W with
  | nil => exact Or.inl (by simp)
  | cons c cs ih =>
      by_cases hc : c = '#'
      · exact Or.inr ⟨[], cs, by simp [hc], by simp⟩
      · rcases ih with h | ⟨A, B, hAB, hA⟩
        · refine Or.inl ?_
          intro hm
          rcases List.mem_cons.mp hm with h2 | h2
          · exact hc h2.symm
          · exact h h2
        · refine Or.inr ⟨c :: A, B, by simp [hAB], ?_⟩
          intro hm
          rcases List.mem_cons.mp hm with h2 | h2
          · exact hc h2.symm
          · exact hA h2

/-- Central fragment lemma: appending `'#' :: f` never changes the five
non-fragment components of the parse. -/
theorem urlparseCore_append_frag (W f : List Char) :
    sameExceptFrag (urlparseCore (W ++ '#' :: f) []) (urlparseCore W []) := by
  rcases hash_decomp W with hW | ⟨A, B, hAB, hA⟩
  · unfold urlparseCore
    rw [splitScheme_append_hash W f hW]
    cases hsp : splitScheme W with
    | none =>
        simp only [hsp]
        exact parseAfterScheme_frag1 [] W f hW
    | some p =>
        cases p with
        | mk s r =>
            simp only [hsp]
            exact parseAfterScheme_frag1 s r f
              (fun hm => hW (splitScheme_rest_mem W s r hsp '#' hm))
  · subst hAB
    rw [List.append_assoc]
    show sameExceptFrag (urlparseCore (A ++ '#' :: (B ++ '#' :: f)) [])
      (urlparseCore (A ++ '#' :: B) [])
    unfold urlparseCore
    rw [splitScheme_append_hash A (B ++ '#' :: f) hA,
      splitScheme_append_hash A B hA]
    cases hsp : splitScheme A with
    | none =>
        simp only [hsp]
        exact parseAfterScheme_frag2 [] A _ _ hA
    | some p =>
        cases p with
        | mk s r =>
            simp only [hsp]
            exact parseAfterScheme_frag2 s r _ _
              (fun hm => hA (splitScheme_rest_mem A s r hsp '#' hm))

theorem sameExceptFrag_symm (p q : Url6) (h : sameExceptFrag p q) :
    sameExceptFrag q p :=
  ⟨h.1.symm, h.2.1.symm, h.2.2.1.symm, h.2.2.2.1.symm, h.2.2.2.2.symm⟩

theorem sameExceptFrag_trans (p q r : Url6) (h1 : sameExceptFrag p q)
    (h2 : sameExceptFrag q r) : sameExceptFrag p r :=
  ⟨h1.1.trans h2.1, h1.2.1.trans h2.2.1, h1.2.2.1.trans h2.2.2.1,
   h1.2.2.2.1.trans h2.2.2.2.1, h1.2.2.2.2.trans h2.2.2.2.2⟩

/-- The cleaned-input parse of `X ++ '#' :: f` agrees with that of `X` off
the fragment. -/
theorem urlparseC_append_frag (X f : List Char) :
    sameExceptFrag (urlparseC (X ++ '#' :: f)) (urlparseC X) := by
  show sameExceptFrag (urlparseCore (cleanUrl (X ++ '#' :: f)) (cleanUrl []))
    (urlparseCore (cleanUrl X) (cleanUrl []))
  rw [cleanUrl_append, cleanUrl_hash]
  exact urlparseCore_append_frag (cleanUrl X) (cleanUrl f)

/-- `urlunparse` appends the fragment last. -/
theorem urlunparseC_frag_decomp (p : Url6) :
    urlunparseC p = urlunparseC ⟨p.scheme, p.netloc, p.path, p.params,
      p.query, []⟩ ++ (if p.frag = [] then [] else '#' :: p.frag) := by
  cases p with
  | mk s n pa par q f =>
      by_cases hf : f = [] <;> simp [urlunparseC, hf]

/-- Parses of unparses of records that agree off the fragment agree off the
fragment. -/
theorem unparse_parse_nf (p q : Url6) (h : sameExceptFrag p q) :
    sameExceptFrag (urlparseC (urlunparseC p))
      (urlparseC (urlunparseC q)) := by
  rcases p with ⟨s1, n1, pa1, par1, q1, f1⟩
  rcases q with ⟨s2, n2, pa2, par2, q2, f2⟩
  rcases h with ⟨hs, hn, hp, hpar, hq⟩
  dsimp only at hs hn hp hpar hq
  subst hs; subst hn; subst hp; subst hpar; subst hq
  rw [urlunparseC_frag_decomp ⟨s1, n1, pa1, par1, q1, f1⟩,
    urlunparseC_frag_decomp ⟨s1, n1, pa1, par1, q1, f2⟩]
  dsimp only
  by_cases hf1 : f1 = []
  · by_cases hf2 : f2 = []
    · rw [if_pos hf1, if_pos hf2]
      exact sameExceptFrag.refl _
    · rw [if_pos hf1, if_neg hf2]
      simp only [List.append_nil]
      exact sameExceptFrag_symm _ _ (urlparseC_append_frag _ f2)
  · by_cases hf2 : f2 = []
    · rw [if_neg hf1, if_pos hf2]
      simp only [List.append_nil]
      exact urlparseC_append_frag _ f1
    · rw [if_neg hf1, if_neg hf2]
      exact sameExceptFrag_trans _ _ _ (urlparseC_append_frag _ f1)
        (sameExceptFrag_symm _ _ (urlparseC_append_frag _ f2))

/-! Default-scheme irrelevance of `urlparse`. -/

theorem parseAfterScheme_eq (a R : List Char) :
    parseAfterScheme a R = ⟨a, (parseAfterScheme [] R).netloc,
      (parseAfterScheme [] R).path, (parseAfterScheme [] R).params,
      (parseAfterScheme [] R).query, (parseAfterScheme [] R).frag⟩ := by
  unfold parseAfterScheme
  cases hsn : splitNetloc R with
  | mk n1 r1 =>
      dsimp only
      cases hfr : splitFirst '#' r1 with
      | none =>
          dsimp only
          unfold parseQP
          cases hqu : splitFirst '?' r1 with
          | none => dsimp only
          | some p =>
              cases p with
              | mk a2 b2 => dsimp only
      | some p =>
          cases p with
          | mk r2 fr =>
              dsimp only
              unfold parseQP
              cases hqu : splitFirst '?' r2 with
              | none => dsimp only
              | some p2 =>
                  cases p2 with
                  | mk a2 b2 => dsimp only

theorem parseAfterScheme_scheme (a R : List Char) :
    (parseAfterScheme a R).scheme = a := by
  rw [parseAfterScheme_eq]

theorem schemeGo_scheme_ne_nil :
    ∀ (R acc s r : List Char), acc ≠ [] → schemeGo acc R = some (s, r) →
      s ≠ [] := by
  intro R
  induction R with
  | nil => intro acc s r _ h; exact absurd h (by simp [schemeGo])
  | cons c cs ih =>
      intro acc s r hacc h
      unfold schemeGo at h
      by_cases h1 : c = ':'
      · rw [if_pos h1] at h
        injection h with h2
        injection h2 with h3 h4
        rw [← h3]
        simp [hacc]
      · rw [if_neg h1] at h
        by_cases h2 : schemeChar c = true
        · rw [if_pos h2] at h
          exact ih (c :: acc) s r (by simp) h
        · simp only [Bool.not_eq_true] at h2
          rw [h2] at h
          exact absurd h (by simp)

theorem splitScheme_scheme_ne_nil (A s r : List Char)
    (h : splitScheme A = some (s, r)) : s ≠ [] := by
  cases A with
  | nil => exact absurd h (by simp [splitScheme])
  | cons c cs =>
      have h0 : (if isAsciiAlphaC c = true then schemeGo [c] cs else none)
          = some (s, r) := h
      by_cases h1 : isAsciiAlphaC c = true
      · rw [if_pos h1] at h0
        exact schemeGo_scheme_ne_nil cs [c] s r (by simp) h0
      · rw [if_neg h1] at h0
        exact absurd h0 (by simp)

theorem urlparseC_scheme_nil (l : List Char)
    (h : splitScheme (cleanUrl l) = none) : (urlparseC l).scheme = [] := by
  show (urlparseCore (cleanUrl l) (cleanUrl [])).scheme = []
  unfold urlparseCore
  rw [h]
  exact parseAfterScheme_scheme _ _

theorem urlparseD_detected (l d : List Char) (s r : List Char)
    (h : splitScheme (cleanUrl l) = some (s, r)) :
    urlparseD l d = urlparseC l := by
  show urlparseCore (cleanUrl l) (cleanUrl d)
    = urlparseCore (cleanUrl l) (cleanUrl [])
  unfold urlparseCore
  rw [h]

theorem urlparseD_of_scheme_ne_nil (l d : List Char)
    (h : (urlparseC l).scheme ≠ []) : urlparseD l d = urlparseC l := by
  cases hsp : splitScheme (cleanUrl l) with
  | none => exact absurd (urlparseC_scheme_nil l hsp) h
  | some p =>
      cases p with
      | mk s r => exact urlparseD_detected l d s r hsp

theorem urlparseD_undetected (l d : List Char)
    (h : splitScheme (cleanUrl l) = none) :
    urlparseD l d = parseAfterScheme (cleanUrl d) (cleanUrl l) := by
  show urlparseCore (cleanUrl l) (cleanUrl d) = _
  unfold urlparseCore
  rw [h]

/-- Default-scheme transfer of agreement-off-fragment. -/
theorem urlparseD_nf (l1 l2 d : List Char)
    (h : sameExceptFrag (urlparseC l1) (urlparseC l2)) :
    sameExceptFrag (urlparseD l1 d) (urlparseD l2 d) := by
  cases hsp1 : splitScheme (cleanUrl l1) with
  | some p =>
      cases p with
      | mk s r =>
          have hs1 : (urlparseC l1).scheme ≠ [] := by
            show (urlparseCore (cleanUrl l1) (cleanUrl [])).scheme ≠ []
            unfold urlparseCore
            rw [hsp1]
            rw [parseAfterScheme_scheme]
            exact splitScheme_scheme_ne_nil _ _ _ hsp1
          have hs2 : (urlparseC l2).scheme ≠ [] := by
            rw [← h.1]; exact hs1
          rw [urlparseD_of_scheme_ne_nil l1 d hs1,
            urlparseD_of_scheme_ne_nil l2 d hs2]
          exact h
  | none =>
      have hnil1 : (urlparseC l1).scheme = [] := urlparseC_scheme_nil l1 hsp1
      have hnil2 : (urlparseC l2).scheme = [] := by rw [← h.1]; exact hnil1
      have hsp2 : splitScheme (cleanUrl l2) = none := by
        cases hsp2 : splitScheme (cleanUrl l2) with
        | none => rfl
        | some p =>
            cases p with
            | mk s r =>
                have : (urlparseC l2).scheme ≠ [] := by
                  show (urlparseCore (cleanUrl l2) (cleanUrl [])).scheme ≠ []
                  unfold urlparseCore
                  rw [hsp2, parseAfterScheme_scheme]
                  exact splitScheme_scheme_ne_nil _ _ _ hsp2
                exact absurd hnil2 this
      rw [urlparseD_undetected l1 d hsp1, urlparseD_undetected l2 d hsp2]
      have e1 : urlparseC l1 = parseAfterScheme [] (cleanUrl l1) := by
        show urlparseCore (cleanUrl l1) (cleanUrl []) = _
        unfold urlparseCore
        rw [hsp1]
        rfl
      have e2 : urlparseC l2 = parseAfterScheme [] (cleanUrl l2) := by
        show urlparseCore (cleanUrl l2) (cleanUrl []) = _
        unfold urlparseCore
        rw [hsp2]
        rfl
      rw [e1, e2] at h
      rw [parseAfterScheme_eq (cleanUrl d) (cleanUrl l1),
        parseAfterScheme_eq (cleanUrl d) (cleanUrl l2)]
      exact ⟨rfl, h.2.1, h.2.2.1, h.2.2.2.1, h.2.2.2.2⟩

/-! Rejected schemes and the `mailto:`/`tel:`/`javascript:` prefix check. -/

theorem splitScheme_mailto (X : List Char) :
    splitScheme ("mailto:".toList ++ X) = some ("mailto".toList, X) := by
  show splitScheme ('m' :: 'a' :: 'i' :: 'l' :: 't' :: 'o' :: ':' :: X) = _
  simp +decide [splitScheme, schemeGo, schemeChar, isAsciiAlphaC,
    isAsciiDigitC, lowerC]

theorem splitScheme_tel (X : List Char) :
    splitScheme ("tel:".toList ++ X) = some ("tel".toList, X) := by
  show splitScheme ('t' :: 'e' :: 'l' :: ':' :: X) = _
  simp +decide [splitScheme, schemeGo, schemeChar, isAsciiAlphaC,
    isAsciiDigitC, lowerC]

theorem splitScheme_js (X : List Char) :
    splitScheme ("javascript:".toList ++ X)
      = some ("javascript".toList, X) := by
  show splitScheme
    ('j' :: 'a' :: 'v' :: 'a' :: 's' :: 'c' :: 'r' :: 'i' :: 'p' :: 't' ::
      ':' :: X) = _
  simp +decide [splitScheme, schemeGo, schemeChar, isAsciiAlphaC,
    isAsciiDigitC, lowerC]

theorem urlparseC_scheme_of_pref (P S X : List Char)
    (hsplit : ∀ Y, splitScheme (P ++ Y) = some (S, Y))
    (hP : cleanUrl P = P) :
    (urlparseC (P ++ X)).scheme = S := by
  show (urlparseCore (cleanUrl (P ++ X)) (cleanUrl [])).scheme = S
  rw [cleanUrl_append, hP]
  unfold urlparseCore
  rw [hsplit (cleanUrl X)]
  exact parseAfterScheme_scheme _ _

theorem startsMTJ_scheme (l : List Char) (h : startsMailtoTelJs l = true) :
    (urlparseC l).scheme = "mailto".toList ∨
    (urlparseC l).scheme = "tel".toList ∨
    (urlparseC l).scheme = "javascript".toList := by
  unfold startsMailtoTelJs at h
  simp only [Bool.or_eq_true] at h
  rcases h with (h1 | h2) | h3
  · rcases List.isPrefixOf_iff_prefix.mp h1 with ⟨t, ht⟩
    rw [← ht]
    exact Or.inl (urlparseC_scheme_of_pref _ _ t splitScheme_mailto
      (by decide))
  · rcases List.isPrefixOf_iff_prefix.mp h2 with ⟨t, ht⟩
    rw [← ht]
    exact Or.inr (Or.inl (urlparseC_scheme_of_pref _ _ t splitScheme_tel
      (by decide)))
  · rcases List.isPrefixOf_iff_prefix.mp h3 with ⟨t, ht⟩
    rw [← ht]
    exact Or.inr (Or.inr (urlparseC_scheme_of_pref _ _ t splitScheme_js
      (by decide)))

theorem normCore_pref_none (base l dom : List Char)
    (hp : startsMailtoTelJs l = true) (hl : l ≠ []) :
    normCore base l dom = none := by
  unfold normCore
  rw [if_neg hl, if_pos hp]

/-- The tail of `normalize_url` after the early rejections, spelled out. -/
theorem normCore_tail (base l dom : List Char) (hl : l ≠ [])
    (hp : startsMailtoTelJs l = false) :
    normCore base l dom =
      (if ¬((urlparseC (urljoinC base l)).scheme = "http".toList ∨
            (urlparseC (urljoinC base l)).scheme = "https".toList) then none
       else if (urlparseC (urljoinC base l)).netloc ≠ [] ∧
            lowerL (urlparseC (urljoinC base l)).netloc ≠ lowerL dom then none
       else some (urlunparseC ⟨(urlparseC (urljoinC base l)).scheme,
          (urlparseC (urljoinC base l)).netloc,
          (urlparseC (urljoinC base l)).path,
          (urlparseC (urljoinC base l)).params,
          (urlparseC (urljoinC base l)).query, []⟩)) := by
  unfold normCore
  rw [if_neg hl, if_neg (by simp [hp])]

theorem normTail_congr (dom a1 a2 : List Char)
    (h : sameExceptFrag (urlparseC a1) (urlparseC a2)) :
    (if ¬((urlparseC a1).scheme = "http".toList ∨
          (urlparseC a1).scheme = "https".toList) then none
     else if (urlparseC a1).netloc ≠ [] ∧
          lowerL (urlparseC a1).netloc ≠ lowerL dom then none
     else some (urlunparseC ⟨(urlparseC a1).scheme, (urlparseC a1).netloc,
        (urlparseC a1).path, (urlparseC a1).params,
        (urlparseC a1).query, []⟩)) =
    (if ¬((urlparseC a2).scheme = "http".toList ∨
          (urlparseC a2).scheme = "https".toList) then none
     else if (urlparseC a2).netloc ≠ [] ∧
          lowerL (urlparseC a2).netloc ≠ lowerL dom then none
     else some (urlunparseC ⟨(urlparseC a2).scheme, (urlparseC a2).netloc,
        (urlparseC a2).path, (urlparseC a2).params,
        (urlparseC a2).query, []⟩)) := by
  obtain ⟨hs, hn, hp2, hpar, hq⟩ := h
  rw [hs, hn, hp2, hpar, hq]

theorem scheme_nonrel_none (base l dom : List Char) (hl : l ≠ [])
    (hpref : startsMailtoTelJs l = false)
    (hs : (urlparseC l).scheme = "mailto".toList ∨
      (urlparseC l).scheme = "tel".toList ∨
      (urlparseC l).scheme = "javascript".toList) :
    normCore base l dom = none := by
  have hsne : (urlparseC l).scheme ≠ [] := by
    rcases hs with h | h | h <;> rw [h] <;> decide
  have habs : urljoinC base l = l := by
    unfold urljoinC
    by_cases hb : base = []
    · rw [if_pos hb]
    · rw [if_neg hb, if_neg hl]
      unfold urljoinParsed
      rw [urlparseD_of_scheme_ne_nil l (urlparseC base).scheme hsne]
      have hnotrel : ¬((urlparseC l).scheme = (urlparseC base).scheme ∧
          (urlparseC l).scheme ∈ usesRelative) := by
        intro hc
        rcases hs with h | h | h <;> rw [h] at hc <;>
          exact absurd hc.2 (by decide)
      rw [if_pos hnotrel]
  rw [normCore_tail base l dom hl hpref, habs]
  have hne : ¬((urlparseC l).scheme = "http".toList ∨
      (urlparseC l).scheme = "https".toList) := by
    rcases hs with h | h | h <;> rw [h] <;> decide
  rw [if_pos hne]

/-- `urljoin` preserves agreement-off-fragment of non-empty links. -/
theorem urljoin_nf (base l1 l2 : List Char) (h1 : l1 ≠ []) (h2 : l2 ≠ [])
    (h : sameExceptFrag (urlparseC l1) (urlparseC l2)) :
    sameExceptFrag (urlparseC (urljoinC base l1))
      (urlparseC (urljoinC base l2)) := by
  unfold urljoinC
  by_cases hb : base = []
  · rw [if_pos hb, if_pos hb]
    exact h
  · rw [if_neg hb, if_neg h1, if_neg hb, if_neg h2]
    have hu := urlparseD_nf l1 l2 (urlparseC base).scheme h
    obtain ⟨hs, hn, hp, hpar, hq⟩ := hu
    unfold urljoinParsed
    by_cases hc1 : ¬((urlparseD l1 (urlparseC base).scheme).scheme =
        (urlparseC base).scheme ∧
        (urlparseD l1 (urlparseC base).scheme).scheme ∈ usesRelative)
    · have hc1' : ¬((urlparseD l2 (urlparseC base).scheme).scheme =
          (urlparseC base).scheme ∧
          (urlparseD l2 (urlparseC base).scheme).scheme ∈ usesRelative) := by
        rw [← hs]
        exact hc1
      rw [if_pos hc1, if_pos hc1']
      exact h
    · have hc1' : ¬¬((urlparseD l2 (urlparseC base).scheme).scheme =
          (urlparseC base).scheme ∧
          (urlparseD l2 (urlparseC base).scheme).scheme ∈ usesRelative) := by
        rw [← hs]
        exact hc1
      rw [if_neg hc1, if_neg hc1']
      by_cases hc2 : (urlparseD l1 (urlparseC base).scheme).scheme ∈
          usesNetloc ∧ (urlparseD l1 (urlparseC base).scheme).netloc ≠ []
      · have hc2' : (urlparseD l2 (urlparseC base).scheme).scheme ∈
            usesNetloc ∧ (urlparseD l2 (urlparseC base).scheme).netloc ≠ [] := by
          rw [← hs, ← hn]
          exact hc2
        rw [if_pos hc2, if_pos hc2']
        exact unparse_parse_nf _ _ ⟨hs, hn, hp, hpar, hq⟩
      · have hc2' : ¬((urlparseD l2 (urlparseC base).scheme).scheme ∈
            usesNetloc ∧ (urlparseD l2 (urlparseC base).scheme).netloc ≠ []) := by
          rw [← hs, ← hn]
          exact hc2
        rw [if_neg hc2, if_neg hc2']
        dsimp only
        by_cases hc3 : (urlparseD l1 (urlparseC base).scheme).path = [] ∧
            (urlparseD l1 (urlparseC base).scheme).params = []
        · have hc3' : (urlparseD l2 (urlparseC base).scheme).path = [] ∧
              (urlparseD l2 (urlparseC base).scheme).params = [] := by
            rw [← hp, ← hpar]
            exact hc3
          rw [if_pos hc3, if_pos hc3']
          apply unparse_parse_nf
          exact ⟨by rw [hs], by rw [hs, hn], rfl, rfl, by rw [hq]⟩
        · have hc3' : ¬((urlparseD l2 (urlparseC base).scheme).path = [] ∧
              (urlparseD l2 (urlparseC base).scheme).params = []) := by
            rw [← hp, ← hpar]
            exact hc3
          rw [if_neg hc3, if_neg hc3']
          apply unparse_parse_nf
          refine ⟨by rw [hs], by rw [hs, hn], by rw [hp], by rw [hpar],
            by rw [hq]⟩

theorem normCore_frag_insensitive (base dom l1 l2 : List Char)
    (h1 : l1 ≠ []) (h2 : l2 ≠ [])
    (h : sameExceptFrag (urlparseC l1) (urlparseC l2)) :
    normCore base l1 dom = normCore base l2 dom := by
  by_cases hp1 : startsMailtoTelJs l1 = true
  · by_cases hp2 : startsMailtoTelJs l2 = true
    · rw [normCore_pref_none base l1 dom hp1 h1,
        normCore_pref_none base l2 dom hp2 h2]
    · have hs2 : (urlparseC l2).scheme = "mailto".toList ∨
          (urlparseC l2).scheme = "tel".toList ∨
          (urlparseC l2).scheme = "javascript".toList := by
        rw [← h.1]
        exact startsMTJ_scheme l1 hp1
      rw [normCore_pref_none base l1 dom hp1 h1,
        scheme_nonrel_none base l2 dom h2 (by simpa using hp2) hs2]
  · by_cases hp2 : startsMailtoTelJs l2 = true
    · have hs1 : (urlparseC l1).scheme = "mailto".toList ∨
          (urlparseC l1).scheme = "tel".toList ∨
          (urlparseC l1).scheme = "javascript".toList := by
        rw [h.1]
        exact startsMTJ_scheme l2 hp2
      rw [normCore_pref_none base l2 dom hp2 h2,
        scheme_nonrel_none base l1 dom h1 (by simpa using hp1) hs1]
    · rw [normCore_tail base l1 dom h1 (by simpa using hp1),
          normCore_tail base l2 dom h2 (by simpa using hp2)]
      exact normTail_congr dom _ _ (urljoin_nf base l1 l2 h1 h2 h)

theorem string_toList_ne (s : String) (h : s ≠ "") : s.toList ≠ [] := by
  intro hnil
  exact h (String.ext (hnil.trans rfl))

/-- C5 (amended): for every base URL, every allowed domain, and every pair
of NON-EMPTY raw links whose parses agree on every component except the
fragment, the Normalizer produces identical results. -/
theorem C5_amended_fragment_insensitive (base domain l1 l2 : String)
    (h1 : l1 ≠ "") (h2 : l2 ≠ "")
    (h : sameExceptFrag (urlparseC l1.toList) (urlparseC l2.toList)) :
    normalize_url base l1 domain = normalize_url base l2 domain := by
  unfold normalize_url
  rw [normCore_frag_insensitive base.toList domain.toList l1.toList l2.toList
    (string_toList_ne l1 h1) (string_toList_ne l2 h2) h]

/-- C5 counterexample: the raw links `""` and `"#top"` differ only in their
fragment component, yet the first is rejected and the second normalizes to
the base URL. -/
theorem C5_fragment_counterexample :
    sameExceptFrag (urlparseC "".toList) (urlparseC "#top".toList) ∧
    normalize_url "http://example.com/" "" "example.com" = none ∧
    normalize_url "http://example.com/" "#top" "example.com"
      = some "http://example.com/" := by
  refine ⟨by decide, by decide, by decide⟩

/-- C5 witness at a concrete input. -/
theorem C5_amended_fragment_insensitive_witness :
    normalize_url "http://example.com/" "/a" "example.com"
      = normalize_url "http://example.com/" "/a#x" "example.com" :=
  C5_amended_fragment_insensitive "http://example.com/" "example.com"
    "/a" "/a#x" (by decide) (by decide) (by decide)

/-! ## Run-level deduplication: the cross-page first-wins merge of the
crawl loop (`for key, value in page_candidates.items(): if key not in
results: results[key] = value`). -/

/-- The candidate map one fetch of `u` merges into the results: empty on a
network error, a `>= 400` status, or non-HTML content, else the page
extraction. -/
def pageMap (web : Web) (domain u : String) : CandMap :=
  match web u with
  | none => []
  | some page =>
      if 400 ≤ page.status then []
      else if ¬ htmlOk page.contentType then []
      else extract_candidates_from_soup page.doc u domain

/-- The classification sequence one fetch of `u` contributes, anchors in
tier/traversal order. -/
def pageSeq (web : Web) (domain u : String) : List (String × Cand) :=
  match web u with
  | none => []
  | some page =>
      if 400 ≤ page.status then []
      else if ¬ htmlOk page.contentType then []
      else considerSeq page.doc u domain

/-- The whole run's classification sequence: fetched pages in fetch order
(the crawl log), anchors within a page in tier/traversal order. -/
def crawlSeq (web : Web) (domain : String) :
    List LogEntry → List (String × Cand)
  | [] => []
  | e :: t => pageSeq web domain e.url ++ crawlSeq web domain t

theorem crawlSeq_append_one (web : Web) (domain : String)
    (l : List LogEntry) (e : LogEntry) :
    crawlSeq web domain (l ++ [e]) =
      crawlSeq web domain l ++ pageSeq web domain e.url := by
  induction l with
  | nil => simp [crawlSeq]
  | cons f t ih => simp [crawlSeq, ih]

theorem pageMap_find (web : Web) (domain u : String) (k : String) :
    (pageMap web domain u).find? (fun p => p.1 = k) =
      (pageSeq web domain u).find? (fun p => p.1 = k) := by
  show lookupK (pageMap web domain u) k = _
  unfold pageMap pageSeq
  cases hw : web u with
  | none => rfl
  | some page =>
      dsimp only
      by_cases hst : 400 ≤ page.status
      · rw [if_pos hst, if_pos hst]
        rfl
      · rw [if_neg hst, if_neg hst]
        by_cases hct : ¬ htmlOk page.contentType
        · rw [if_pos hct, if_pos hct]
          rfl
        · rw [if_neg hct, if_neg hct]
          rw [extract_eq_keyedFold, lookupK_keyedFold]
          simp [lookupK, List.find?]

/-- Any step outcome either leaves results and log unchanged, or appends one
log entry for a fetched URL `u` and folds exactly `u`'s page map into the
results, absent keys only. -/
theorem crawlStep_merge (web : Web) (domain : String) (depth : Int)
    (s s2 : CrawlState)
    (h : crawlStep web domain depth s = .next s2 ∨
      crawlStep web domain depth s = .done s2) :
    (s2.results = s.results ∧ s2.log = s.log) ∨
    (∃ u, s2.log = s.log ++ [⟨u, s.results.length⟩] ∧
      s2.results = keyedFold (pageMap web domain u) s.results) := by
  unfold crawlStep at h
  cases hq : s.queue with
  | nil =>
      rw [hq] at h
      rcases h with h | h
      · exact absurd h (by simp)
      · injection h with h2
        subst h2
        exact Or.inl ⟨rfl, rfl⟩
  | cons t rest =>
      cases t with
      | mk u d =>
      rw [hq] at h
      simp only [] at h
      by_cases hv : u ∈ s.visited
      · rw [if_pos hv] at h
        rcases h with h | h
        · injection h with h2
          subst h2
          exact Or.inl ⟨rfl, rfl⟩
        · exact absurd h (by simp)
      · rw [if_neg hv] at h
        cases hw : web u with
        | none =>
            rw [hw] at h
            replace h :
                (StepRes.next (⟨rest, s.visited ++ [u], s.results,
                  s.log ++ [⟨u, s.results.length⟩]⟩ : CrawlState)
                  = .next s2) ∨
                (StepRes.next (⟨rest, s.visited ++ [u], s.results,
                  s.log ++ [⟨u, s.results.length⟩]⟩ : CrawlState)
                  = .done s2) := h
            rcases h with h | h
            · injection h with h2
              subst h2
              refine Or.inr ⟨u, rfl, ?_⟩
              show s.results = keyedFold (pageMap web domain u) s.results
              simp [pageMap, hw, keyedFold]
            · exact absurd h (by simp)
        | some page =>
            rw [hw] at h
            simp only [] at h
            by_cases hst : 400 ≤ page.status
            · rw [if_pos hst] at h
              replace h :
                  (StepRes.next (⟨rest, s.visited ++ [u], s.results,
                    s.log ++ [⟨u, s.results.length⟩]⟩ : CrawlState)
                    = .next s2) ∨
                  (StepRes.next (⟨rest, s.visited ++ [u], s.results,
                    s.log ++ [⟨u, s.results.length⟩]⟩ : CrawlState)
                    = .done s2) := h
              rcases h with h | h
              · injection h with h2
                subst h2
                refine Or.inr ⟨u, rfl, ?_⟩
                show s.results = keyedFold (pageMap web domain u) s.results
                simp [pageMap, hw, hst, keyedFold]
              · exact absurd h (by simp)
            · rw [if_neg hst] at h
              by_cases hct : htmlOk page.contentType
              · rw [if_neg (by simpa using hct)] at h
                by_cases hbrk : 50 < (mergeResults s.results
                    (extract_candidates_from_soup page.doc u domain)).length
                · rw [if_pos hbrk] at h
                  rcases h with h | h
                  · exact absurd h (by simp)
                  · injection h with h2
                    subst h2
                    refine Or.inr ⟨u, rfl, ?_⟩
                    show mergeResults s.results
                        (extract_candidates_from_soup page.doc u domain) =
                      keyedFold (pageMap web domain u) s.results
                    rw [mergeResults_eq_keyedFold]
                    simp [pageMap, hw, hst, hct]
                · rw [if_neg hbrk] at h
                  rcases h with h | h
                  · injection h with h2
                    subst h2
                    refine Or.inr ⟨u, rfl, ?_⟩
                    show mergeResults s.results
                        (extract_candidates_from_soup page.doc u domain) =
                      keyedFold (pageMap web domain u) s.results
                    rw [mergeResults_eq_keyedFold]
                    simp [pageMap, hw, hst, hct]
                  · exact absurd h (by simp)
              · rw [if_pos (by simpa using hct)] at h
                replace h :
                    (StepRes.next (⟨rest, s.visited ++ [u], s.results,
                      s.log ++ [⟨u, s.results.length⟩]⟩ : CrawlState)
                      = .next s2) ∨
                    (StepRes.next (⟨rest, s.visited ++ [u], s.results,
                      s.log ++ [⟨u, s.results.length⟩]⟩ : CrawlState)
                      = .done s2) := h
                rcases h with h | h
                · injection h with h2
                  subst h2
                  refine Or.inr ⟨u, rfl, ?_⟩
                  show s.results = keyedFold (pageMap web domain u) s.results
                  simp [pageMap, hw, hst, hct, keyedFold]
                · exact absurd h (by simp)

/-- The crawl invariant: the results map looks any key up to its first
occurrence in the run's classification sequence so far, and holds each key
at most once. One merge step preserves it. -/
theorem merge_inv_step (web : Web) (domain : String) (s s2 : CrawlState)
    (hm : (s2.results = s.results ∧ s2.log = s.log) ∨
      (∃ u, s2.log = s.log ++ [⟨u, s.results.length⟩] ∧
        s2.results = keyedFold (pageMap web domain u) s.results))
    (hP : (∀ k, lookupK s.results k =
        (crawlSeq web domain s.log).find? (fun p => p.1 = k)) ∧
      (s.results.map (fun p => p.1)).Nodup) :
    (∀ k, lookupK s2.results k =
        (crawlSeq web domain s2.log).find? (fun p => p.1 = k)) ∧
      (s2.results.map (fun p => p.1)).Nodup := by
  rcases hm with ⟨hr, hl⟩ | ⟨u, hl, hr⟩
  · rw [hr, hl]
    exact hP
  · constructor
    · intro k
      rw [hr, hl, lookupK_keyedFold, crawlSeq_append_one, List.find?_append]
      rw [← hP.1 k]
      cases hc : lookupK s.results k with
      | some v => simp [Option.or]
      | none => simp [Option.or, pageMap_find]
    · rw [hr]
      exact keys_nodup_keyedFold _ _ hP.2

/-- C6: within one extraction run, candidates are deduplicated by normalized
URL with the first occurrence winning, and later occurrences never
overwrite. Per page: the stored candidate under any URL key is the one
produced by the first accepted anchor with that key in tier/traversal order,
and each key occurs at most once in the extraction map. Across the pages of
one crawl: the final results map stores, under any URL key, the candidate of
the first accepted anchor over the fetched pages in fetch order, and each
key occurs at most once in the results map. -/
theorem C6_dedup_first_wins (doc : List Node) (base domain : String)
    (web : Web) (url : String) (depth : Int) :
    ((∀ k : String,
      lookupK (extract_candidates_from_soup doc base domain) k =
        (considerSeq doc base domain).find? (fun p => p.1 = k)) ∧
    ((extract_candidates_from_soup doc base domain).map
      (fun p => p.1)).Nodup) ∧
    ((∀ k : String,
      lookupK (fetch_with_requests web url domain depth).results k =
        (crawlSeq web domain
          (fetch_with_requests web url domain depth).log).find?
          (fun p => p.1 = k)) ∧
    ((fetch_with_requests web url domain depth).results.map
      (fun p => p.1)).Nodup) := by
  constructor
  · constructor
    · intro k
      rw [extract_eq_keyedFold, lookupK_keyedFold]
      simp [lookupK, List.find?]
    · rw [extract_eq_keyedFold]
      exact keys_nodup_keyedFold _ _ (by simp)
  · exact crawlLoop_inv web domain depth
      (fun s => (∀ k, lookupK s.results k =
          (crawlSeq web domain s.log).find? (fun p => p.1 = k)) ∧
        (s.results.map (fun p => p.1)).Nodup)
      (fun s => (∀ k, lookupK s.results k =
          (crawlSeq web domain s.log).find? (fun p => p.1 = k)) ∧
        (s.results.map (fun p => p.1)).Nodup)
      (fun s s2 hstep hP => merge_inv_step web domain s s2
        (crawlStep_merge web domain depth s s2 (Or.inl hstep)) hP)
      (fun s f hstep hP => merge_inv_step web domain s f
        (crawlStep_merge web domain depth s f (Or.inr hstep)) hP)
      _ _ _ (fetch_spec web url domain depth)
      ⟨fun k => rfl, by simp [initState]⟩

end SysInspect
